import Mathlib

/-!
Verification of the ingestion/merge/scheduling core of the yomi client
against its design specification.

The unified note store, the adapter filters, the Nostr subscription
catch-up machine, the reconnect backoff, the reading scheduler's
self-post deduplication, the relay-list resolution, the Bluesky
auth-refresh-and-retry, and the custom Bech32/NIP-19 codec are embedded
shallowly as Lean functions, translated from the TypeScript source
(`App.tsx`, `nostr/client.ts`, the Misskey module, `discord/index.ts`,
the Bluesky module, `nostr/bech32.ts`, `nostr/utils.ts`,
`nostr/constants.ts`).  Timers are modelled by explicit deadline
fields over an event trace with arrival times, per the single-threaded
event-loop semantics of the host language.
-/

namespace Yomi

/-! ### Unified note store (App.tsx)

`NoteWithRead` from App.tsx; the display-only fields `authorName`,
`authorAvatar`, `cid` are not relevant to any store invariant and are
omitted.  `created_at` is the epoch-seconds timestamp already computed
by the adapter callbacks (`Math.floor(Date.parse/1000)` is outside the
store logic; the store only compares these numbers). -/

structure NoteWithRead where
  id : String
  pubkey : String
  content : String
  created_at : Int
  read : Bool
  source : String
deriving Repr, DecidableEq

/-- The comparator `(a, b) => b.created_at - a.created_at` of
`newNotes.sort(...)`: `a` may come before `b` iff `b.created_at ≤ a.created_at`. -/
def laterEq (a b : NoteWithRead) : Prop := b.created_at ≤ a.created_at

instance : DecidableRel laterEq := fun a b =>
  inferInstanceAs (Decidable (b.created_at ≤ a.created_at))

instance : IsTotal NoteWithRead laterEq :=
  ⟨fun a b => (Int.le_total b.created_at a.created_at)⟩

instance : IsTrans NoteWithRead laterEq :=
  ⟨fun _ _ _ h1 h2 => le_trans h2 h1⟩

/-- Stable sort by `created_at` descending (`newNotes.sort((a, b) => b.created_at - a.created_at)`;
the host sort is stable, as is insertion sort). -/
def sortByCreatedDesc (l : List NoteWithRead) : List NoteWithRead :=
  List.insertionSort laterEq l

/-- The shared insertion step of `addBlueskyPosts` / `addMisskeyNotes` /
`addDiscordMessages` for a single already-converted note: skip when the id is
already present, else prepend, re-sort descending, and keep the newest 200
(`newNotes.slice(0, 200)` when `newNotes.length > 200`). -/
def cap200 (newNotes : List NoteWithRead) : List NoteWithRead :=
  if 200 < newNotes.length then newNotes.take 200 else newNotes

def insertSorted (note : NoteWithRead) (notes : List NoteWithRead) : List NoteWithRead :=
  if notes.any (fun n => n.id = note.id) then notes
  else cap200 (sortByCreatedDesc (note :: notes))

/-- The Nostr subscription callback in `initNostr` (App.tsx): reject on
duplicate id; in the `shouldReplace` branch keep only notes that are read or
not from nostr and prepend without sorting or truncating; otherwise insert,
sort descending and truncate to 200. -/
def nostrOnNote (note : NoteWithRead) (shouldReplace : Bool)
    (notes : List NoteWithRead) : List NoteWithRead :=
  if notes.any (fun n => n.id = note.id) then notes
  else if shouldReplace then
    note :: notes.filter (fun n => n.read || n.source != "nostr")
  else cap200 (sortByCreatedDesc (note :: notes))

/-- An incoming adapter item reduced to the fields the store logic uses. -/
structure IncomingItem where
  id : String
  pubkey : String
  content : String
  created_at : Int
deriving Repr, DecidableEq

/-- The `NoteWithRead` each adapter callback constructs (`read: false`,
`source` fixed per adapter). -/
def toNote (it : IncomingItem) (src : String) : NoteWithRead :=
  { id := it.id, pubkey := it.pubkey, content := it.content,
    created_at := it.created_at, read := false, source := src }

/-- One adapter insertion into the unified store. -/
inductive StoreEvent where
  | misskey (it : IncomingItem)
  | bluesky (it : IncomingItem)
  | discord (it : IncomingItem)
  | nostr (it : IncomingItem) (shouldReplace : Bool)
deriving Repr, DecidableEq

def StoreEvent.itemId : StoreEvent → String
  | .misskey it => it.id
  | .bluesky it => it.id
  | .discord it => it.id
  | .nostr it _ => it.id

def StoreEvent.isReplace : StoreEvent → Bool
  | .nostr _ b => b
  | _ => false

/-- Apply one adapter callback to the store.  `addMisskeyNotes` and
`addDiscordMessages` additionally skip items without text
(`if (!note.text || ...) continue`); `addBlueskyPosts` has no text guard of
its own. -/
def applyStoreEvent (notes : List NoteWithRead) : StoreEvent → List NoteWithRead
  | .misskey it => if it.content = "" then notes else insertSorted (toNote it "misskey") notes
  | .bluesky it => insertSorted (toNote it "bluesky") notes
  | .discord it => if it.content = "" then notes else insertSorted (toNote it "discord") notes
  | .nostr it rep => nostrOnNote (toNote it "nostr") rep notes

/-- The store after a sequence of adapter insertions, starting from the empty
store of `handleStart`. -/
def applyStoreEvents (evs : List StoreEvent) : List NoteWithRead :=
  evs.foldl applyStoreEvent []

def storeIds (notes : List NoteWithRead) : List String :=
  notes.map NoteWithRead.id

/-- Store kept in descending `created_at` order. -/
def storeOrdered (notes : List NoteWithRead) : Prop :=
  notes.Sorted laterEq

instance (notes : List NoteWithRead) : Decidable (storeOrdered notes) :=
  inferInstanceAs (Decidable (List.Pairwise _ _))

/-! Dedup preservation lemmas. -/

theorem sortByCreatedDesc_perm (l : List NoteWithRead) :
    List.Perm (sortByCreatedDesc l) l :=
  List.perm_insertionSort laterEq l

theorem insertSorted_nodup {notes : List NoteWithRead} (note : NoteWithRead)
    (h : (storeIds notes).Nodup) : (storeIds (insertSorted note notes)).Nodup := by
  unfold insertSorted
  by_cases hdup : notes.any (fun n => n.id = note.id)
  · simpa [hdup]
  · have hnot : note.id ∉ storeIds notes := by
      intro hmem
      rcases List.mem_map.mp hmem with ⟨n, hn, hid⟩
      exact hdup (List.any_eq_true.mpr ⟨n, hn, by simp [hid]⟩)
    have hcons : (storeIds (note :: notes)).Nodup := by
      simpa [storeIds] using And.intro hnot h
    have hperm : List.Perm (storeIds (sortByCreatedDesc (note :: notes)))
        (storeIds (note :: notes)) :=
      (sortByCreatedDesc_perm (note :: notes)).map NoteWithRead.id
    have hsortnd : (storeIds (sortByCreatedDesc (note :: notes))).Nodup :=
      hperm.nodup_iff.mpr hcons
    simp only [hdup, if_false, cap200]
    by_cases hlen : 200 < (sortByCreatedDesc (note :: notes)).length
    · have hsub : List.Sublist (storeIds ((sortByCreatedDesc (note :: notes)).take 200))
          (storeIds (sortByCreatedDesc (note :: notes))) :=
        (List.take_sublist _ _).map NoteWithRead.id
      simpa [hlen] using hsub.nodup hsortnd
    · simpa [hlen] using hsortnd

theorem nostrOnNote_nodup {notes : List NoteWithRead} (note : NoteWithRead)
    (rep : Bool) (h : (storeIds notes).Nodup) :
    (storeIds (nostrOnNote note rep notes)).Nodup := by
  unfold nostrOnNote
  by_cases hdup : notes.any (fun n => n.id = note.id)
  · simpa [hdup]
  · have hnot : note.id ∉ storeIds notes := by
      intro hmem
      rcases List.mem_map.mp hmem with ⟨n, hn, hid⟩
      exact hdup (List.any_eq_true.mpr ⟨n, hn, by simp [hid]⟩)
    cases rep with
    | true =>
        have hsubl : List.Sublist (notes.filter (fun n => n.read || n.source != "nostr")) notes :=
          List.filter_sublist notes
        have hsub : List.Sublist
            (storeIds (notes.filter (fun n => n.read || n.source != "nostr")))
            (storeIds notes) := hsubl.map NoteWithRead.id
        have hnd : (storeIds (notes.filter (fun n => n.read || n.source != "nostr"))).Nodup :=
          hsub.nodup h
      -- the new id cannot occur among the kept notes either
        have hnot2 : note.id ∉ storeIds (notes.filter (fun n => n.read || n.source != "nostr")) :=
          fun hm => hnot (hsub.subset hm)
        simp only [hdup, if_false]
        simpa [storeIds] using And.intro hnot2 hnd
    | false =>
        have := insertSorted_nodup note h
        unfold insertSorted at this
        simp only [hdup, if_false] at this ⊢
        exact this

theorem applyStoreEvent_nodup {notes : List NoteWithRead} (ev : StoreEvent)
    (h : (storeIds notes).Nodup) : (storeIds (applyStoreEvent notes ev)).Nodup := by
  cases ev with
  | misskey it =>
      by_cases htext : it.content = ""
      · simpa [applyStoreEvent, htext]
      · simpa [applyStoreEvent, htext] using insertSorted_nodup (toNote it "misskey") h
  | bluesky it => simpa [applyStoreEvent] using insertSorted_nodup (toNote it "bluesky") h
  | discord it =>
      by_cases htext : it.content = ""
      · simpa [applyStoreEvent, htext]
      · simpa [applyStoreEvent, htext] using insertSorted_nodup (toNote it "discord") h
  | nostr it rep => simpa [applyStoreEvent] using nostrOnNote_nodup (toNote it "nostr") rep h

theorem applyStoreEvents_nodup (evs : List StoreEvent) :
    (storeIds (applyStoreEvents evs)).Nodup := by
  suffices hgen : ∀ (notes : List NoteWithRead), (storeIds notes).Nodup →
      (storeIds (evs.foldl applyStoreEvent notes)).Nodup by
    exact hgen [] (by simp [storeIds])
  induction evs with
  | nil => intro notes h; simpa using h
  | cons ev rest ih =>
      intro notes h
      exact ih (applyStoreEvent notes ev) (applyStoreEvent_nodup ev h)

theorem applyStoreEvent_of_dup {notes : List NoteWithRead} {ev : StoreEvent}
    (h : ev.itemId ∈ storeIds notes) : applyStoreEvent notes ev = notes := by
  have hany : ∀ (it : IncomingItem), it.id = ev.itemId →
      notes.any (fun n => n.id = it.id) = true := by
    intro it hid
    rcases List.mem_map.mp h with ⟨n, hn, hnid⟩
    exact List.any_eq_true.mpr ⟨n, hn, by simp [hid, hnid]⟩
  cases ev with
  | misskey it =>
      by_cases htext : it.content = ""
      · simp [applyStoreEvent, htext]
      · simp [applyStoreEvent, htext, insertSorted, hany it rfl, toNote]
  | bluesky it => simp [applyStoreEvent, insertSorted, hany it rfl, toNote]
  | discord it =>
      by_cases htext : it.content = ""
      · simp [applyStoreEvent, htext]
      · simp [applyStoreEvent, htext, insertSorted, hany it rfl, toNote]
  | nostr it rep => simp [applyStoreEvent, nostrOnNote, hany it rfl, toNote]

/-! Cap and ordering lemmas. -/

theorem insertSorted_length {notes : List NoteWithRead} (note : NoteWithRead)
    (h : notes.length ≤ 200) : (insertSorted note notes).length ≤ 200 := by
  unfold insertSorted cap200
  have hlen1 : (sortByCreatedDesc (note :: notes)).length = notes.length + 1 := by
    rw [sortByCreatedDesc, List.length_insertionSort, List.length_cons]
  split
  · exact h
  · split
    · simp [List.length_take]
    · omega

theorem insertSorted_evict {notes : List NoteWithRead} (note : NoteWithRead) :
    ∀ b ∈ notes, b ∉ insertSorted note notes →
      ∀ a ∈ insertSorted note notes, b.created_at ≤ a.created_at := by
  intro b hb hbnot a ha
  unfold insertSorted cap200 at hbnot ha
  by_cases hdup : notes.any (fun n => n.id = note.id)
  · simp only [hdup, if_true] at hbnot
    exact absurd hb hbnot
  · simp only [hdup, if_false] at hbnot ha
    by_cases hlen : 200 < (sortByCreatedDesc (note :: notes)).length
    · simp only [hlen, if_true] at hbnot ha
      have hbs : b ∈ sortByCreatedDesc (note :: notes) :=
        (sortByCreatedDesc_perm (note :: notes)).mem_iff.mpr (List.mem_cons_of_mem _ hb)
      have hbdrop : b ∈ (sortByCreatedDesc (note :: notes)).drop 200 := by
        rcases (List.mem_append.mp (by
          rw [List.take_append_drop 200 (sortByCreatedDesc (note :: notes))]; exact hbs
          : b ∈ (sortByCreatedDesc (note :: notes)).take 200 ++
              (sortByCreatedDesc (note :: notes)).drop 200)) with h1 | h2
        · exact absurd h1 hbnot
        · exact h2
      have hsorted : List.Pairwise laterEq
          ((sortByCreatedDesc (note :: notes)).take 200 ++
            (sortByCreatedDesc (note :: notes)).drop 200) := by
        rw [List.take_append_drop]
        exact List.sorted_insertionSort laterEq (note :: notes)
      exact (List.pairwise_append.mp hsorted).2.2 a ha b hbdrop
    · simp only [hlen, if_false] at hbnot
      have hbs : b ∈ sortByCreatedDesc (note :: notes) :=
        (sortByCreatedDesc_perm (note :: notes)).mem_iff.mpr (List.mem_cons_of_mem _ hb)
      exact absurd hbs hbnot

theorem insertSorted_sorted {notes : List NoteWithRead} (note : NoteWithRead)
    (_ : storeOrdered notes) : storeOrdered (insertSorted note notes) := by
  unfold insertSorted cap200
  by_cases hdup : notes.any (fun n => n.id = note.id)
  · simpa [hdup, storeOrdered] using ‹storeOrdered notes›
  · simp only [hdup, if_false]
    by_cases hlen : 200 < (sortByCreatedDesc (note :: notes)).length
    · simp only [hlen, if_true]
      exact (List.sorted_insertionSort laterEq (note :: notes)).sublist
        (List.take_sublist _ _)
    · simp only [hlen, if_false]
      exact List.sorted_insertionSort laterEq (note :: notes)

/-! A concrete 201-entry scenario: 200 Misskey insertions in ascending
`created_at` order, then one Nostr insertion through the `shouldReplace`
branch.  Every step is evaluated symbolically. -/

/-- Distinct ids of controlled shape. -/
def aStr (i : Nat) : String := String.mk (List.replicate i 'a')

theorem aStr_inj {i j : Nat} (h : aStr i = aStr j) : i = j := by
  have := congrArg (fun s => s.data.length) h
  simpa [aStr] using this

def mkItem (i : Nat) : IncomingItem :=
  { id := aStr i, pubkey := "p", content := "x", created_at := (i : Int) }

def mkNote (i : Nat) : NoteWithRead := toNote (mkItem i) "misskey"

def mkStore : Nat → List NoteWithRead
  | 0 => []
  | n + 1 => mkNote n :: mkStore n

def capEvents : Nat → List StoreEvent
  | 0 => []
  | n + 1 => capEvents n ++ [.misskey (mkItem n)]

theorem mem_mkStore {x : NoteWithRead} {n : Nat} (h : x ∈ mkStore n) :
    ∃ i, i < n ∧ x = mkNote i := by
  induction n with
  | zero => simp [mkStore] at h
  | succ m ih =>
      rcases List.mem_cons.mp h with h1 | h2
      · exact ⟨m, Nat.lt_succ_self m, h1⟩
      · rcases ih h2 with ⟨i, hi, hx⟩
        exact ⟨i, Nat.lt_succ_of_lt hi, hx⟩

theorem mkStore_length (n : Nat) : (mkStore n).length = n := by
  induction n with
  | zero => rfl
  | succ m ih => simp [mkStore, ih]

theorem mkStore_sorted (n : Nat) : storeOrdered (mkStore n) := by
  induction n with
  | zero => simp [mkStore, storeOrdered]
  | succ m ih =>
      refine List.Pairwise.cons ?_ ih
      intro b hb
      rcases mem_mkStore hb with ⟨i, hi, hx⟩
      have : (i : Int) ≤ (m : Int) := by exact_mod_cast Nat.le_of_lt hi
      simpa [laterEq, hx, mkNote, toNote, mkItem] using this

theorem mkStore_id_free (n : Nat) {j : Nat} (hj : n ≤ j) :
    (mkStore n).any (fun x => x.id = aStr j) = false := by
  rw [List.any_eq_false]
  intro x hx
  rcases mem_mkStore hx with ⟨i, hi, hxi⟩
  simp only [hxi, mkNote, toNote, mkItem, decide_eq_true_eq]
  intro hid
  have := aStr_inj hid
  omega

theorem capEvents_store {n : Nat} (h : n ≤ 200) :
    applyStoreEvents (capEvents n) = mkStore n := by
  induction n with
  | zero => rfl
  | succ m ih =>
      have hm : m ≤ 200 := Nat.le_of_succ_le h
      have hstep : applyStoreEvent (mkStore m) (.misskey (mkItem m)) = mkStore (m + 1) := by
        have hsorted : List.Sorted laterEq (mkNote m :: mkStore m) :=
          mkStore_sorted (m + 1)
        have hid := mkStore_id_free m (Nat.le_refl m)
        have hsort : sortByCreatedDesc (mkNote m :: mkStore m) = mkNote m :: mkStore m :=
          List.Sorted.insertionSort_eq hsorted
        have hx : (mkItem m).content = "x" := rfl
        simp only [applyStoreEvent, hx]
        rw [if_neg (by simp)]
        rw [show toNote (mkItem m) "misskey" = mkNote m from rfl]
        unfold insertSorted cap200
        rw [if_neg (by simpa [mkNote, toNote, mkItem] using hid), hsort,
          if_neg (by simp only [List.length_cons, mkStore_length]; omega)]
        rfl
      unfold applyStoreEvents at ih ⊢
      rw [capEvents, List.foldl_append, ih hm]
      simpa using hstep

/-- The sequence of insertions that drives the store to 201 entries:
200 Misskey notes, then a fresh Nostr note delivered with
`shouldReplace = true`. -/
def capCexEvents : List StoreEvent :=
  capEvents 200 ++ [.nostr (mkItem 200) true]

theorem capCex_store :
    applyStoreEvents capCexEvents = toNote (mkItem 200) "nostr" :: mkStore 200 := by
  unfold capCexEvents applyStoreEvents
  rw [List.foldl_append]
  have h200 : applyStoreEvents (capEvents 200) = mkStore 200 :=
    capEvents_store (Nat.le_refl 200)
  unfold applyStoreEvents at h200
  rw [h200]
  simp only [List.foldl_cons, List.foldl_nil, applyStoreEvent]
  unfold nostrOnNote
  rw [if_neg (by simpa [toNote, mkItem] using mkStore_id_free 200 (Nat.le_refl 200))]
  rw [if_pos rfl]
  have hfilter : List.filter (fun n => n.read || n.source != "nostr") (mkStore 200)
      = mkStore 200 := by
    rw [List.filter_eq_self]
    intro a ha
    rcases mem_mkStore ha with ⟨i, _, hx⟩
    simp [hx, mkNote, toNote]
  rw [hfilter]

end Yomi

/-- C1: for every sequence of adapter insertions into the unified note store
(the Nostr subscription callback, addBlueskyPosts, addMisskeyNotes,
addDiscordMessages), the store never holds two entries sharing an id, and an
incoming item whose id already occurs in the store is rejected, leaving the
store unchanged. -/
theorem store_dedup_C1 :
    (∀ evs : List Yomi.StoreEvent, (Yomi.storeIds (Yomi.applyStoreEvents evs)).Nodup)
    ∧ ∀ (notes : List Yomi.NoteWithRead) (ev : Yomi.StoreEvent),
        ev.itemId ∈ Yomi.storeIds notes → Yomi.applyStoreEvent notes ev = notes :=
  ⟨Yomi.applyStoreEvents_nodup, fun _ _ h => Yomi.applyStoreEvent_of_dup h⟩

/-- Witness for C1 at a concrete input: inserting an item whose id is already
present leaves the concrete store unchanged. -/
theorem store_dedup_C1_witness :
    Yomi.applyStoreEvent
        [{ id := "a1", pubkey := "p", content := "x", created_at := 5,
           read := false, source := "misskey" }]
        (.bluesky { id := "a1", pubkey := "q", content := "y", created_at := 9 })
      = [{ id := "a1", pubkey := "p", content := "x", created_at := 5,
           read := false, source := "misskey" }] :=
  store_dedup_C1.2 _ _ (by simp [Yomi.storeIds, Yomi.StoreEvent.itemId])

namespace Yomi

theorem nostrOnNote_false (note : NoteWithRead) (notes : List NoteWithRead) :
    nostrOnNote note false notes = insertSorted note notes := by
  unfold nostrOnNote insertSorted
  by_cases hdup : notes.any (fun n => n.id = note.id) <;> simp [hdup]

/-- A Misskey note with `created_at = 100` followed by a Nostr note with
`created_at = 50` delivered through the pre-catch-up replace branch. -/
def cexC3Events : List StoreEvent :=
  [.misskey { id := "m1", pubkey := "p", content := "x", created_at := 100 },
   .nostr { id := "n1", pubkey := "q", content := "y", created_at := 50 } true]

end Yomi

/-- C2 counterexample: after 200 Misskey insertions with ascending
`created_at` and one Nostr insertion through the pre-catch-up
(`shouldReplace`) branch, the store holds 201 entries — the replace branch
neither sorts nor truncates, so the 200 cap is exceeded. -/
theorem store_cap_C2_counterexample :
    (Yomi.applyStoreEvents Yomi.capCexEvents).length = 201 := by
  rw [Yomi.capCex_store]
  simp [Yomi.mkStore_length]

/-- C2 (amended): after every insertion through a non-replace path
(addBlueskyPosts, addMisskeyNotes, addDiscordMessages and the Nostr
post-catch-up branch), a store of at most 200 entries stays at most 200
entries, and any entry evicted by the cap has `created_at` at most that of
every retained entry; the Nostr pre-catch-up (`shouldReplace`) branch does
not truncate and can leave the store with 201 entries. -/
theorem store_cap_C2_amended :
    ∀ (notes : List Yomi.NoteWithRead) (ev : Yomi.StoreEvent),
      notes.length ≤ 200 → ev.isReplace = false →
      (Yomi.applyStoreEvent notes ev).length ≤ 200 ∧
      ∀ b ∈ notes, b ∉ Yomi.applyStoreEvent notes ev →
        ∀ a ∈ Yomi.applyStoreEvent notes ev, b.created_at ≤ a.created_at := by
  intro notes ev hlen hrep
  cases ev with
  | misskey it =>
      by_cases htext : it.content = ""
      · refine ⟨by simpa [Yomi.applyStoreEvent, htext], ?_⟩
        intro b hb hbnot
        simp only [Yomi.applyStoreEvent, htext, if_pos] at hbnot
        exact absurd hb hbnot
      · refine ⟨?_, ?_⟩
        · simpa [Yomi.applyStoreEvent, htext] using
            Yomi.insertSorted_length (Yomi.toNote it "misskey") hlen
        · intro b hb hbnot a ha
          simp only [Yomi.applyStoreEvent, htext, if_neg, if_false] at hbnot ha
          exact Yomi.insertSorted_evict (Yomi.toNote it "misskey") b hb hbnot a ha
  | bluesky it =>
      refine ⟨?_, ?_⟩
      · simpa [Yomi.applyStoreEvent] using
          Yomi.insertSorted_length (Yomi.toNote it "bluesky") hlen
      · intro b hb hbnot a ha
        simp only [Yomi.applyStoreEvent] at hbnot ha
        exact Yomi.insertSorted_evict (Yomi.toNote it "bluesky") b hb hbnot a ha
  | discord it =>
      by_cases htext : it.content = ""
      · refine ⟨by simpa [Yomi.applyStoreEvent, htext], ?_⟩
        intro b hb hbnot
        simp only [Yomi.applyStoreEvent, htext, if_pos] at hbnot
        exact absurd hb hbnot
      · refine ⟨?_, ?_⟩
        · simpa [Yomi.applyStoreEvent, htext] using
            Yomi.insertSorted_length (Yomi.toNote it "discord") hlen
        · intro b hb hbnot a ha
          simp only [Yomi.applyStoreEvent, htext, if_neg, if_false] at hbnot ha
          exact Yomi.insertSorted_evict (Yomi.toNote it "discord") b hb hbnot a ha
  | nostr it rep =>
      have hrep0 : rep = false := by simpa [Yomi.StoreEvent.isReplace] using hrep
      subst hrep0
      rw [show Yomi.applyStoreEvent notes (.nostr it false)
          = Yomi.insertSorted (Yomi.toNote it "nostr") notes from by
        simp [Yomi.applyStoreEvent, Yomi.nostrOnNote_false]]
      exact ⟨Yomi.insertSorted_length _ hlen,
        fun b hb hbnot a ha => Yomi.insertSorted_evict _ b hb hbnot a ha⟩

/-- Witness for the amended C2 at a concrete input: inserting one Bluesky
post into the empty store keeps the cap. -/
theorem store_cap_C2_amended_witness :
    (Yomi.applyStoreEvent []
        (.bluesky { id := "b1", pubkey := "p", content := "x", created_at := 7 })).length ≤ 200 ∧
    ∀ b ∈ ([] : List Yomi.NoteWithRead),
      b ∉ Yomi.applyStoreEvent []
          (.bluesky { id := "b1", pubkey := "p", content := "x", created_at := 7 }) →
      ∀ a ∈ Yomi.applyStoreEvent []
          (.bluesky { id := "b1", pubkey := "p", content := "x", created_at := 7 }),
        b.created_at ≤ a.created_at :=
  store_cap_C2_amended [] _ (by decide) rfl

/-- C3 counterexample: a Misskey note with `created_at = 100` followed by a
Nostr note with `created_at = 50` taken through the pre-catch-up replace
branch leaves the store out of descending `created_at` order. -/
theorem store_order_C3_counterexample :
    ¬ Yomi.storeOrdered (Yomi.applyStoreEvents Yomi.cexC3Events) := by
  decide

/-- C3 (amended): every insertion through a non-replace path preserves the
descending `created_at` order of the store; the Nostr pre-catch-up
(`shouldReplace`) branch prepends without sorting and can break it. -/
theorem store_order_C3_amended :
    ∀ (notes : List Yomi.NoteWithRead) (ev : Yomi.StoreEvent),
      Yomi.storeOrdered notes → ev.isReplace = false →
      Yomi.storeOrdered (Yomi.applyStoreEvent notes ev) := by
  intro notes ev hord hrep
  cases ev with
  | misskey it =>
      by_cases htext : it.content = ""
      · simpa [Yomi.applyStoreEvent, htext] using hord
      · simpa [Yomi.applyStoreEvent, htext] using
          Yomi.insertSorted_sorted (Yomi.toNote it "misskey") hord
  | bluesky it =>
      simpa [Yomi.applyStoreEvent] using
        Yomi.insertSorted_sorted (Yomi.toNote it "bluesky") hord
  | discord it =>
      by_cases htext : it.content = ""
      · simpa [Yomi.applyStoreEvent, htext] using hord
      · simpa [Yomi.applyStoreEvent, htext] using
          Yomi.insertSorted_sorted (Yomi.toNote it "discord") hord
  | nostr it rep =>
      have hrep0 : rep = false := by simpa [Yomi.StoreEvent.isReplace] using hrep
      subst hrep0
      rw [show Yomi.applyStoreEvent notes (.nostr it false)
          = Yomi.insertSorted (Yomi.toNote it "nostr") notes from by
        simp [Yomi.applyStoreEvent, Yomi.nostrOnNote_false]]
      exact Yomi.insertSorted_sorted _ hord

/-- Witness for the amended C3 at a concrete input: inserting one Misskey
note into a one-entry ordered store keeps the order. -/
theorem store_order_C3_amended_witness :
    Yomi.storeOrdered (Yomi.applyStoreEvent
      [{ id := "a", pubkey := "p", content := "x", created_at := 9,
         read := false, source := "misskey" }]
      (.misskey { id := "b", pubkey := "q", content := "y", created_at := 4 })) :=
  store_order_C3_amended _ _ (by decide) rfl

namespace Yomi

/-! ### Nostr live subscription (`subscribeToNotes` in nostr/client.ts)

The handler keeps `eoseReceived`, `newestTimestamp` and a pending
`setTimeout(markEoseReceived, 1000)`.  The timer is modelled as an explicit
deadline (set time + 1000 ms); when the next callback runs at a time past
the deadline the timer has already fired, so the deadline check is applied
before the event is handled. -/

/-- A wire event as consumed by the subscription handler. -/
structure NostrEvent where
  id : String
  pubkey : String
  content : String
  created_at : Int
  kind : Int
  tags : List (List String)
deriving Repr, DecidableEq

structure SubState where
  eoseReceived : Bool
  newestTimestamp : Int
  eoseDeadline : Option Int
deriving Repr, DecidableEq

def initSubState : SubState :=
  { eoseReceived := false, newestTimestamp := 0, eoseDeadline := none }

/-- The pending `markEoseReceived` timeout fires if its deadline has passed. -/
def fireEoseTimeout (now : Int) (st : SubState) : SubState :=
  match st.eoseDeadline with
  | some d => if d ≤ now then { st with eoseReceived := true, eoseDeadline := none } else st
  | none => st

/-- The `next` handler of `subscribeToNotes` for one packet arriving at
`now` (ms): before EOSE, surface only strictly newer events with
`shouldReplace = true` and re-arm the 1-second EOSE timeout on every kind-1
event; after EOSE, surface only strictly newer events with
`shouldReplace = false`. -/
def subStep (now : Int) (ev : NostrEvent) (st : SubState) :
    SubState × Option (NostrEvent × Bool) :=
  let st1 := fireEoseTimeout now st
  if ev.kind = 1 then
    if st1.eoseReceived then
      if st1.newestTimestamp < ev.created_at then
        ({ st1 with newestTimestamp := ev.created_at }, some (ev, false))
      else (st1, none)
    else
      if st1.newestTimestamp < ev.created_at then
        ({ st1 with newestTimestamp := ev.created_at, eoseDeadline := some (now + 1000) },
          some (ev, true))
      else ({ st1 with eoseDeadline := some (now + 1000) }, none)
  else (st1, none)

/-- The events surfaced to the store callback over a timed arrival trace. -/
def runSub (st : SubState) : List (Int × NostrEvent) → List (NostrEvent × Bool)
  | [] => []
  | (t, ev) :: rest =>
    match subStep t ev st with
    | (st1, some o) => o :: runSub st1 rest
    | (st1, none) => runSub st1 rest

theorem fireEoseTimeout_newest (now : Int) (st : SubState) :
    (fireEoseTimeout now st).newestTimestamp = st.newestTimestamp := by
  unfold fireEoseTimeout
  cases st.eoseDeadline with
  | none => rfl
  | some d => dsimp only; split <;> rfl

theorem fireEoseTimeout_mono {now : Int} {st : SubState}
    (h : st.eoseReceived = true) : (fireEoseTimeout now st).eoseReceived = true := by
  unfold fireEoseTimeout
  cases st.eoseDeadline with
  | none => exact h
  | some d =>
      dsimp only
      split
      · rfl
      · exact h

theorem subStep_eq_other {now : Int} {ev : NostrEvent} {st : SubState}
    (hk : ¬ ev.kind = 1) : subStep now ev st = (fireEoseTimeout now st, none) := by
  simp [subStep, hk]

theorem subStep_eq_post_new {now : Int} {ev : NostrEvent} {st : SubState}
    (hk : ev.kind = 1) (hE : (fireEoseTimeout now st).eoseReceived = true)
    (hN : (fireEoseTimeout now st).newestTimestamp < ev.created_at) :
    subStep now ev st =
      ({ fireEoseTimeout now st with newestTimestamp := ev.created_at }, some (ev, false)) := by
  simp [subStep, hk, hE, hN]

theorem subStep_eq_post_old {now : Int} {ev : NostrEvent} {st : SubState}
    (hk : ev.kind = 1) (hE : (fireEoseTimeout now st).eoseReceived = true)
    (hN : ¬ (fireEoseTimeout now st).newestTimestamp < ev.created_at) :
    subStep now ev st = (fireEoseTimeout now st, none) := by
  simp [subStep, hk, hE, hN]

theorem subStep_eq_pre_new {now : Int} {ev : NostrEvent} {st : SubState}
    (hk : ev.kind = 1) (hE : (fireEoseTimeout now st).eoseReceived = false)
    (hN : (fireEoseTimeout now st).newestTimestamp < ev.created_at) :
    subStep now ev st =
      ({ fireEoseTimeout now st with
          newestTimestamp := ev.created_at
          eoseDeadline := some (now + 1000) }, some (ev, true)) := by
  simp [subStep, hk, hE, hN]

theorem subStep_eq_pre_old {now : Int} {ev : NostrEvent} {st : SubState}
    (hk : ev.kind = 1) (hE : (fireEoseTimeout now st).eoseReceived = false)
    (hN : ¬ (fireEoseTimeout now st).newestTimestamp < ev.created_at) :
    subStep now ev st =
      ({ fireEoseTimeout now st with eoseDeadline := some (now + 1000) }, none) := by
  simp [subStep, hk, hE, hN]

theorem subStep_some {now : Int} {ev : NostrEvent} {st st1 : SubState}
    {o : NostrEvent × Bool} (h : subStep now ev st = (st1, some o)) :
    o.1 = ev ∧ st.newestTimestamp < ev.created_at ∧
    st1.newestTimestamp = ev.created_at ∧
    o.2 = !(fireEoseTimeout now st).eoseReceived ∧
    st1.eoseReceived = (fireEoseTimeout now st).eoseReceived := by
  have hnw := fireEoseTimeout_newest now st
  by_cases hk : ev.kind = 1
  · cases hE : (fireEoseTimeout now st).eoseReceived with
    | true =>
        by_cases hN : (fireEoseTimeout now st).newestTimestamp < ev.created_at
        · rw [subStep_eq_post_new hk hE hN] at h
          simp only [Prod.mk.injEq, Option.some.injEq] at h
          obtain ⟨h1, h2⟩ := h
          subst h1 h2
          refine ⟨rfl, by omega, rfl, by simp [hE], by simp [hE]⟩
        · rw [subStep_eq_post_old hk hE hN] at h
          simp at h
    | false =>
        by_cases hN : (fireEoseTimeout now st).newestTimestamp < ev.created_at
        · rw [subStep_eq_pre_new hk hE hN] at h
          simp only [Prod.mk.injEq, Option.some.injEq] at h
          obtain ⟨h1, h2⟩ := h
          subst h1 h2
          refine ⟨rfl, by omega, rfl, by simp [hE], by simp [hE]⟩
        · rw [subStep_eq_pre_old hk hE hN] at h
          simp at h
  · rw [subStep_eq_other hk] at h
    simp at h

theorem subStep_none {now : Int} {ev : NostrEvent} {st st1 : SubState}
    (h : subStep now ev st = (st1, none)) :
    st1.newestTimestamp = st.newestTimestamp := by
  have hnw := fireEoseTimeout_newest now st
  by_cases hk : ev.kind = 1
  · cases hE : (fireEoseTimeout now st).eoseReceived with
    | true =>
        by_cases hN : (fireEoseTimeout now st).newestTimestamp < ev.created_at
        · rw [subStep_eq_post_new hk hE hN] at h
          simp at h
        · rw [subStep_eq_post_old hk hE hN] at h
          simp only [Prod.mk.injEq] at h
          rw [← h.1, hnw]
    | false =>
        by_cases hN : (fireEoseTimeout now st).newestTimestamp < ev.created_at
        · rw [subStep_eq_pre_new hk hE hN] at h
          simp at h
        · rw [subStep_eq_pre_old hk hE hN] at h
          simp only [Prod.mk.injEq] at h
          rw [← h.1]
          exact hnw
  · rw [subStep_eq_other hk] at h
    simp only [Prod.mk.injEq] at h
    rw [← h.1, hnw]

theorem subStep_eose_of_fire {now : Int} {ev : NostrEvent} {st : SubState}
    (hE : (fireEoseTimeout now st).eoseReceived = true) :
    ((subStep now ev st).1).eoseReceived = true := by
  by_cases hk : ev.kind = 1
  · by_cases hN : (fireEoseTimeout now st).newestTimestamp < ev.created_at
    · rw [subStep_eq_post_new hk hE hN]
      exact hE
    · rw [subStep_eq_post_old hk hE hN]
      exact hE
  · rw [subStep_eq_other hk]
    exact hE

theorem subStep_eose_mono {now : Int} {ev : NostrEvent} {st : SubState}
    (h : st.eoseReceived = true) : ((subStep now ev st).1).eoseReceived = true :=
  subStep_eose_of_fire (fireEoseTimeout_mono h)

theorem subStep_eose_of_deadline {now d : Int} {ev : NostrEvent} {st : SubState}
    (hd : st.eoseDeadline = some d) (hle : d ≤ now) :
    ((subStep now ev st).1).eoseReceived = true := by
  refine subStep_eose_of_fire ?_
  unfold fireEoseTimeout
  rw [hd]
  simp [hle]

theorem subStep_rearm {now : Int} {ev : NostrEvent} {st : SubState}
    (hE : (fireEoseTimeout now st).eoseReceived = false) (hk : ev.kind = 1) :
    ((subStep now ev st).1).eoseDeadline = some (now + 1000) := by
  by_cases hN : (fireEoseTimeout now st).newestTimestamp < ev.created_at
  · rw [subStep_eq_pre_new hk hE hN]
  · rw [subStep_eq_pre_old hk hE hN]

theorem runSub_spec : ∀ (trace : List (Int × NostrEvent)) (st : SubState),
    (∀ o ∈ runSub st trace, st.newestTimestamp < o.1.created_at) ∧
    List.Chain' (fun a b => a.1.created_at < b.1.created_at) (runSub st trace) ∧
    (st.eoseReceived = true → ∀ o ∈ runSub st trace, o.2 = false) ∧
    (runSub st trace).Pairwise (fun a b => b.2 = true → a.2 = true) := by
  intro trace
  induction trace with
  | nil => intro st; simp [runSub]
  | cons hd rest ih =>
      intro st
      obtain ⟨t, ev⟩ := hd
      rcases hstep : subStep t ev st with ⟨st1, o⟩
      have hrest := ih st1
      cases o with
      | none =>
          have hnw := subStep_none hstep
          have hrw : runSub st ((t, ev) :: rest) = runSub st1 rest := by
            simp only [runSub, hstep]
          rw [hrw]
          refine ⟨?_, hrest.2.1, ?_, hrest.2.2.2⟩
          · intro o ho
            have := hrest.1 o ho
            omega
          · intro hE
            have hE1 : st1.eoseReceived = true := by
              have := @subStep_eose_mono t ev st hE
              rwa [hstep] at this
            exact hrest.2.2.1 hE1
      | some o =>
          have hfacts := subStep_some hstep
          obtain ⟨ho1, hlt, hnw1, ho2, hE1⟩ := hfacts
          have hrw : runSub st ((t, ev) :: rest) = o :: runSub st1 rest := by
            simp only [runSub, hstep]
          rw [hrw]
          have hrest1 : ∀ o2 ∈ runSub st1 rest, ev.created_at < o2.1.created_at := by
            intro o2 ho2m
            have := hrest.1 o2 ho2m
            omega
          refine ⟨?_, ?_, ?_, ?_⟩
          · intro o2 ho2m
            rcases List.mem_cons.mp ho2m with h1 | h2
            · rw [h1, ho1]; exact hlt
            · have := hrest1 o2 h2
              omega
          · refine List.chain'_cons'.mpr ⟨?_, hrest.2.1⟩
            intro y hy
            have hym : y ∈ runSub st1 rest := List.mem_of_mem_head? hy
            rw [ho1]
            exact hrest1 y hym
          · intro hE o2 ho2m
            have hEfire : (fireEoseTimeout t st).eoseReceived = true :=
              fireEoseTimeout_mono hE
            rcases List.mem_cons.mp ho2m with h1 | h2
            · rw [h1, ho2, hEfire]; rfl
            · exact hrest.2.2.1 (by rw [hE1, hEfire]) o2 h2
          · cases hb : o.2 with
            | true =>
                refine List.Pairwise.cons ?_ hrest.2.2.2
                intro o2 _
                intro _
                exact hb
            | false =>
                have hEfire : (fireEoseTimeout t st).eoseReceived = true := by
                  rw [hb] at ho2
                  simpa using ho2.symm
                have hallfalse : ∀ o2 ∈ runSub st1 rest, o2.2 = false :=
                  hrest.2.2.1 (by rw [hE1, hEfire])
                refine List.Pairwise.cons ?_ hrest.2.2.2
                intro o2 ho2m htrue
                rw [hallfalse o2 ho2m] at htrue
                simp at htrue

end Yomi

/-- C5: the surfaced sequence of `subscribeToNotes` has strictly increasing
`createdAt` (so a reconnect replay of an old event is never surfaced again);
surfaced events carry replace semantics exactly while catch-up has not
happened and append semantics afterwards, so the flag sequence is a block of
`true` followed by a block of `false`; an event processed after the pending
1-second silence deadline has passed finds the subscription caught up; every
pre-catch-up kind-1 event re-arms the 1-second silence timeout; and an event
is surfaced only if its `createdAt` strictly exceeds the newest timestamp
seen so far. -/
theorem nostr_catchup_C5 :
    (∀ trace : List (Int × Yomi.NostrEvent),
      List.Chain' (fun a b => a.1.created_at < b.1.created_at)
        (Yomi.runSub Yomi.initSubState trace) ∧
      (Yomi.runSub Yomi.initSubState trace).Pairwise (fun a b => b.2 = true → a.2 = true)) ∧
    (∀ (st : Yomi.SubState) (now : Int) (ev : Yomi.NostrEvent) (d : Int),
      st.eoseDeadline = some d → d ≤ now →
      ((Yomi.subStep now ev st).1).eoseReceived = true) ∧
    (∀ (st : Yomi.SubState) (now : Int) (ev : Yomi.NostrEvent),
      (Yomi.fireEoseTimeout now st).eoseReceived = false → ev.kind = 1 →
      ((Yomi.subStep now ev st).1).eoseDeadline = some (now + 1000)) ∧
    (∀ (st st1 : Yomi.SubState) (now : Int) (ev : Yomi.NostrEvent)
        (o : Yomi.NostrEvent × Bool),
      Yomi.subStep now ev st = (st1, some o) →
      o.1 = ev ∧ st.newestTimestamp < ev.created_at ∧
      o.2 = !(Yomi.fireEoseTimeout now st).eoseReceived) :=
  ⟨fun trace => ⟨(Yomi.runSub_spec trace Yomi.initSubState).2.1,
      (Yomi.runSub_spec trace Yomi.initSubState).2.2.2⟩,
    fun _ _ _ _ hd hle => Yomi.subStep_eose_of_deadline hd hle,
    fun _ _ _ hE hk => Yomi.subStep_rearm hE hk,
    fun _ _ _ _ _ h =>
      ⟨(Yomi.subStep_some h).1, (Yomi.subStep_some h).2.1, (Yomi.subStep_some h).2.2.2.1⟩⟩

/-- Witness for C5 at concrete inputs: a pending deadline of 1500 ms has
passed at 2000 ms, so the next processed event finds the subscription caught
up; and a fresh pre-catch-up kind-1 event is surfaced with replace
semantics. -/
theorem nostr_catchup_C5_witness :
    ((Yomi.subStep 2000
        { id := "e1", pubkey := "p", content := "c", created_at := 10, kind := 1, tags := [] }
        { eoseReceived := false, newestTimestamp := 0, eoseDeadline := some 1500 }).1).eoseReceived
      = true ∧
    (({ id := "e1", pubkey := "p", content := "c", created_at := 10, kind := 1,
        tags := [] } : Yomi.NostrEvent), true).1
      = { id := "e1", pubkey := "p", content := "c", created_at := 10, kind := 1, tags := [] } :=
  ⟨nostr_catchup_C5.2.1 { eoseReceived := false, newestTimestamp := 0, eoseDeadline := some 1500 }
      2000 { id := "e1", pubkey := "p", content := "c", created_at := 10, kind := 1, tags := [] }
      1500 rfl (by decide),
    (nostr_catchup_C5.2.2.2 Yomi.initSubState
      { eoseReceived := false, newestTimestamp := 10, eoseDeadline := some 1000 } 0
      { id := "e1", pubkey := "p", content := "c", created_at := 10, kind := 1, tags := [] }
      ({ id := "e1", pubkey := "p", content := "c", created_at := 10, kind := 1, tags := [] }, true)
      (by decide)).1⟩

namespace Yomi

/-! ### Per-source content filters (C4)

The Misskey stream handler and timeline loop drop notes with
`renoteId`/`replyId` or no text; the Bluesky timeline fetch drops feed items
with `reply` or `reason`.  The Nostr subscription handler above applies no
tag-based filter; `hasReplyMarker` below is modelled from the spec (a
text note carrying a reply reference, an `e` tag) in order to state the
claim against it. -/

/-- Raw note fields consulted by the Misskey handlers; nullable strings. -/
structure MisskeyRawNote where
  id : String
  userId : String
  text : Option String
  renoteId : Option String
  replyId : Option String
  createdAt : String
deriving Repr, DecidableEq

/-- Truthiness of a nullable string field. -/
def optTruthy : Option String → Bool
  | none => false
  | some s => s != ""

/-- The skip condition `!rawNote.text || rawNote.renoteId || rawNote.replyId`
used both by the stream `onmessage` handler and by the `getTimeline` loop of
the Misskey module. -/
def misskeySkip (n : MisskeyRawNote) : Bool :=
  !optTruthy n.text || optTruthy n.renoteId || optTruthy n.replyId

/-- The stream handler surfaces the note to the callback unless skipped. -/
def misskeyStreamHandle (n : MisskeyRawNote) : Option MisskeyRawNote :=
  if misskeySkip n then none else some n

/-- A Bluesky timeline feed item as consulted by `getTimeline`: the record
text (nullable), the record timestamp, and the presence of the `reply` and
`reason` members. -/
structure BlueskyFeedItem where
  uri : String
  cid : String
  authorDid : String
  recordText : Option String
  recordCreatedAt : String
  hasReply : Bool
  hasReason : Bool
deriving Repr, DecidableEq

structure BlueskyPost where
  uri : String
  cid : String
  authorDid : String
  text : String
  createdAt : String
deriving Repr, DecidableEq

/-- The guard `if (since && post.record.createdAt <= since) continue`
(host string comparison is lexicographic). -/
def sinceSkip (since : Option String) (createdAt : String) : Bool :=
  match since with
  | none => false
  | some s => if s = "" then false else decide (createdAt ≤ s)

/-- One iteration of the `for (const item of data.feed)` loop of the
Bluesky `getTimeline`. -/
def blueskyItemPost (since : Option String) (item : BlueskyFeedItem) : Option BlueskyPost :=
  if !optTruthy item.recordText then none
  else if item.hasReply || item.hasReason then none
  else if sinceSkip since item.recordCreatedAt then none
  else some { uri := item.uri, cid := item.cid, authorDid := item.authorDid,
              text := item.recordText.getD "", createdAt := item.recordCreatedAt }

/-- The post list returned by the Bluesky `getTimeline` for a feed. -/
def blueskyFilterFeed (since : Option String) (feed : List BlueskyFeedItem) : List BlueskyPost :=
  feed.filterMap (blueskyItemPost since)

/-- Modelled from the spec: an event "carrying a reply marker" is a text
note whose tag list holds an `e` tag (a reply reference).  No corresponding
check exists in `subscribeToNotes`. -/
def hasReplyMarker (ev : NostrEvent) : Bool :=
  ev.tags.any (fun t => t.headD "" = "e")

/-- A concrete kind-1 event carrying a reply marker. -/
def replyMarkedEvent : NostrEvent :=
  { id := "r1", pubkey := "p", content := "a reply", created_at := 10, kind := 1,
    tags := [["e", "parent-id"], ["p", "q"]] }

end Yomi

/-- C4 counterexample: the Nostr live subscription performs no reply
filtering — a kind-1 event carrying an `e` (reply) tag is surfaced by
`subscribeToNotes` and inserted into the store by the subscription callback,
contradicting the claim that reply-flagged events are never inserted from
any source. -/
theorem reply_exclusion_C4_counterexample :
    Yomi.hasReplyMarker Yomi.replyMarkedEvent = true ∧
    Yomi.runSub Yomi.initSubState [(0, Yomi.replyMarkedEvent)]
      = [(Yomi.replyMarkedEvent, true)] ∧
    Yomi.applyStoreEvents
        [.nostr { id := "r1", pubkey := "p", content := "a reply", created_at := 10 } true]
      = [Yomi.toNote { id := "r1", pubkey := "p", content := "a reply", created_at := 10 }
          "nostr"] := by
  refine ⟨by decide, by decide, by decide⟩

/-- C4 (amended): the Misskey stream and timeline drop notes flagged with
`renoteId` or `replyId`, and the Bluesky timeline fetch drops feed items
with `reply` or `reason`; the Nostr live subscription applies no reply
filter, so a reply-marked event can be surfaced (and hence inserted). -/
theorem reply_exclusion_C4_amended :
    (∀ n : Yomi.MisskeyRawNote,
      (Yomi.optTruthy n.renoteId || Yomi.optTruthy n.replyId) = true →
      Yomi.misskeySkip n = true ∧ Yomi.misskeyStreamHandle n = none) ∧
    (∀ (since : Option String) (item : Yomi.BlueskyFeedItem),
      (item.hasReply || item.hasReason) = true →
      Yomi.blueskyItemPost since item = none) ∧
    Yomi.runSub Yomi.initSubState [(0, Yomi.replyMarkedEvent)]
      = [(Yomi.replyMarkedEvent, true)] := by
  refine ⟨?_, ?_, by decide⟩
  · intro n h
    have hskip : Yomi.misskeySkip n = true := by
      unfold Yomi.misskeySkip
      rcases Bool.or_eq_true_iff.mp h with h1 | h1 <;> simp [h1]
    exact ⟨hskip, by unfold Yomi.misskeyStreamHandle; rw [hskip]; rfl⟩
  · intro since item h
    unfold Yomi.blueskyItemPost
    by_cases ht : Yomi.optTruthy item.recordText
    · simp [ht, h]
    · simp [ht]

/-- Witness for the amended C4 at a concrete input: a renote is dropped by
the Misskey stream handler. -/
theorem reply_exclusion_C4_amended_witness :
    Yomi.misskeySkip
        { id := "m1", userId := "u", text := some "t", renoteId := some "r0",
          replyId := none, createdAt := "2024" } = true ∧
    Yomi.misskeyStreamHandle
        { id := "m1", userId := "u", text := some "t", renoteId := some "r0",
          replyId := none, createdAt := "2024" } = none :=
  reply_exclusion_C4_amended.1 _ (by decide)

namespace Yomi

/-! ### Streaming reconnect backoff (C6)

`getReconnectDelay` and the `onopen`/`onclose` handlers are byte-for-byte
identical between the Misskey module and `discord/index.ts`:
`min(1000 * 2 ** reconnectAttempts, 60000)`, `reconnectAttempts = 0` on
open, `reconnectAttempts++` after scheduling the delay on a close that
still has a registered callback. -/

def getReconnectDelay (reconnectAttempts : Nat) : Nat :=
  min (1000 * 2 ^ reconnectAttempts) 60000

/-- A connection lifecycle event while a consumer stays registered. -/
inductive ConnEvent where
  | opened
  | closedWanted
deriving Repr, DecidableEq

/-- Effect of one lifecycle event on `reconnectAttempts`, together with the
reconnect delay scheduled by a close. -/
def reconnectStep : Nat → ConnEvent → Nat × Option Nat
  | _, .opened => (0, none)
  | n, .closedWanted => (n + 1, some (getReconnectDelay n))

def foldAttempts (n : Nat) (evs : List ConnEvent) : Nat :=
  evs.foldl (fun m e => (reconnectStep m e).1) n

theorem foldAttempts_closes (n : Nat) (k : Nat) :
    foldAttempts n (List.replicate k .closedWanted) = n + k := by
  induction k generalizing n with
  | zero => rfl
  | succ m ih =>
      rw [List.replicate_succ]
      show foldAttempts (n + 1) (List.replicate m .closedWanted) = n + (m + 1)
      rw [ih (n + 1)]
      omega

end Yomi

/-- C6: for each streaming adapter (the Misskey and Discord modules share
this code), after a successful open the attempt counter is zero, and the
N-th consecutive close-while-still-wanted event schedules a reconnect delay
of `min(1000 * 2^(N-1), 60000)` ms; in particular the first close after an
open schedules the 1-second base delay. -/
theorem backoff_growth_C6 :
    ∀ (n0 N : Nat), 1 ≤ N →
      (Yomi.reconnectStep n0 .opened).1 = 0 ∧
      (Yomi.reconnectStep
          (Yomi.foldAttempts (Yomi.reconnectStep n0 .opened).1
            (List.replicate (N - 1) .closedWanted)) .closedWanted).2
        = some (min (1000 * 2 ^ (N - 1)) 60000) ∧
      (Yomi.reconnectStep (Yomi.reconnectStep n0 .opened).1 .closedWanted).2 = some 1000 := by
  intro n0 N hN
  refine ⟨rfl, ?_, rfl⟩
  show (Yomi.reconnectStep (Yomi.foldAttempts 0 (List.replicate (N - 1) .closedWanted))
      .closedWanted).2 = some (min (1000 * 2 ^ (N - 1)) 60000)
  rw [Yomi.foldAttempts_closes 0 (N - 1)]
  simp [Yomi.reconnectStep, Yomi.getReconnectDelay]

/-- Witness for C6 at N = 7: the seventh consecutive close schedules the
60-second cap, and the first close after an open schedules 1 second. -/
theorem backoff_growth_C6_witness :
    (Yomi.reconnectStep 5 .opened).1 = 0 ∧
    (Yomi.reconnectStep
        (Yomi.foldAttempts (Yomi.reconnectStep 5 .opened).1
          (List.replicate (7 - 1) .closedWanted)) .closedWanted).2
      = some (min (1000 * 2 ^ (7 - 1)) 60000) ∧
    (Yomi.reconnectStep (Yomi.reconnectStep 5 .opened).1 .closedWanted).2 = some 1000 :=
  backoff_growth_C6 5 7 (by decide)

namespace Yomi

/-! ### Reading scheduler self-post deduplication (`processNextNote`, App.tsx)

`myReadContentRef` maps a content string to the `Date.now()` at which the
operator's own post with that content was first read; a `setTimeout` deletes
the record exactly 60000 ms later, so a lookup at `now` finds a record
recorded at `ts` iff `now < ts + 60000`.  The caller then tests the found
timestamp for truthiness (`if (readTimestamp)`). -/

instance : Inhabited NoteWithRead :=
  ⟨{ id := "", pubkey := "", content := "", created_at := 0, read := false, source := "" }⟩

/-- The operator's own identity per platform (`getNostrPubkey()`,
`blueskyProfile.did`, `misskeyProfile.id`); `none` when not configured. -/
structure OperatorIds where
  nostrPubkey : Option String
  blueskyDid : Option String
  misskeyId : Option String
deriving Repr, DecidableEq

/-- `currentNotes.findLastIndex((n) => !n.read)`: the oldest unread note
sits at the highest index, since the store is newest-first. -/
def findLastUnread : List NoteWithRead → Option Nat
  | [] => none
  | n :: rest =>
    match findLastUnread rest with
    | some i => some (i + 1)
    | none => if n.read then none else some 0

/-- `currentNotes.map((n, i) => i === unreadIndex ? { ...n, read: true } : n)`. -/
def markReadAt : List NoteWithRead → Nat → List NoteWithRead
  | [], _ => []
  | n :: rest, 0 => { n with read := true } :: rest
  | n :: rest, i + 1 => n :: markReadAt rest i

/-- The `isMyPost` chain of `processNextNote`. -/
def isMyPost (op : OperatorIds) (note : NoteWithRead) : Bool :=
  if note.source = "nostr" then
    match op.nostrPubkey with
    | some pk => note.pubkey == pk
    | none => false
  else if note.source = "bluesky" then
    match op.blueskyDid with
    | some did => note.pubkey == did
    | none => false
  else if note.source = "misskey" then
    match op.misskeyId with
    | some mid => note.pubkey == mid
    | none => false
  else false

/-- `myReadContent.get(content)` under the 60-second deletion timer: the
stored timestamp is visible only while `now < ts + 60000`. -/
def myReadLookup (m : List (String × Int)) (now : Int) (c : String) : Option Int :=
  match m.find? (fun p => p.1 == c) with
  | some p => if now < p.2 + 60000 then some p.2 else none
  | none => none

structure SchedState where
  notes : List NoteWithRead
  myReadContent : List (String × Int)
deriving Repr, DecidableEq

/-- One `processNextNote` call, including its self-recursion on a skipped
duplicate; `fuel` bounds the recursion (each recursive call has marked one
more note read).  The returned note is the one handed to the speech engine
(`speechManager.speak` / the mute dwell), if any. -/
def processNextNote (op : OperatorIds) (now : Int) :
    Nat → SchedState → SchedState × Option NoteWithRead
  | 0, st => (st, none)
  | fuel + 1, st =>
    match findLastUnread st.notes with
    | none => (st, none)
    | some i =>
      let noteToRead := st.notes.getD i default
      let notes1 := markReadAt st.notes i
      if isMyPost op noteToRead then
        match myReadLookup st.myReadContent now noteToRead.content with
        | some ts =>
          if ts != 0 then
            processNextNote op now fuel { notes := notes1, myReadContent := st.myReadContent }
          else
            ({ notes := notes1,
               myReadContent := (noteToRead.content, now) :: st.myReadContent },
              some noteToRead)
        | none =>
          ({ notes := notes1,
             myReadContent := (noteToRead.content, now) :: st.myReadContent },
            some noteToRead)
      else ({ notes := notes1, myReadContent := st.myReadContent }, some noteToRead)

theorem markReadAt_getD {notes : List NoteWithRead} {i : Nat} (h : i < notes.length) :
    (markReadAt notes i).getD i default = { notes.getD i default with read := true } := by
  induction notes generalizing i with
  | nil => simp at h
  | cons n rest ih =>
      cases i with
      | zero => rfl
      | succ j =>
          have : j < rest.length := by simpa using h
          simpa [markReadAt] using ih this

end Yomi

/-- C7: when the scheduler dequeues an unread note authored by the operator
on that platform whose exact content was already read as an operator
self-post within the trailing 60 seconds, the note is still marked read but
the speech engine is not invoked for it and the call continues with the next
unread note; the first read of such content records it at the current time,
and the record is no longer found 60 seconds later. -/
theorem selfpost_dedup_C7 :
    (∀ (op : Yomi.OperatorIds) (now ts : Int) (fuel : Nat) (st : Yomi.SchedState) (i : Nat),
      Yomi.findLastUnread st.notes = some i →
      Yomi.isMyPost op (st.notes.getD i default) = true →
      Yomi.myReadLookup st.myReadContent now (st.notes.getD i default).content = some ts →
      (ts != 0) = true →
      Yomi.processNextNote op now (fuel + 1) st
        = Yomi.processNextNote op now fuel
            { notes := Yomi.markReadAt st.notes i, myReadContent := st.myReadContent }) ∧
    (∀ (notes : List Yomi.NoteWithRead) (i : Nat), i < notes.length →
      (Yomi.markReadAt notes i).getD i default
        = { notes.getD i default with read := true }) ∧
    (∀ (op : Yomi.OperatorIds) (now : Int) (fuel : Nat) (st : Yomi.SchedState) (i : Nat),
      Yomi.findLastUnread st.notes = some i →
      Yomi.isMyPost op (st.notes.getD i default) = true →
      Yomi.myReadLookup st.myReadContent now (st.notes.getD i default).content = none →
      Yomi.processNextNote op now (fuel + 1) st
        = ({ notes := Yomi.markReadAt st.notes i,
             myReadContent := ((st.notes.getD i default).content, now) :: st.myReadContent },
            some (st.notes.getD i default))) ∧
    (∀ (c : String) (ts now2 : Int) (m : List (String × Int)),
      ts + 60000 ≤ now2 → Yomi.myReadLookup ((c, ts) :: m) now2 c = none) := by
  refine ⟨?_, @Yomi.markReadAt_getD, ?_, ?_⟩
  · intro op now ts fuel st i hfind hself hlook hts
    simp only [Yomi.processNextNote, hfind, hself, hlook, hts, if_true]
  · intro op now fuel st i hfind hself hlook
    simp only [Yomi.processNextNote, hfind, hself, hlook, if_true]
  · intro c ts now2 m h
    simp only [Yomi.myReadLookup, List.find?, beq_self_eq_true]
    rw [if_neg (by omega)]

/-- Witness for C7 at a concrete input: a self Misskey note whose content
was recorded 29 seconds earlier is skipped (read-state advances, nothing is
spoken), and the record is gone 60 seconds after recording. -/
theorem selfpost_dedup_C7_witness :
    Yomi.processNextNote
        { nostrPubkey := none, blueskyDid := none, misskeyId := some "me" } 30000 2
        { notes := [{ id := "n2", pubkey := "her", content := "hi", created_at := 9,
                      read := false, source := "misskey" },
                    { id := "n1", pubkey := "me", content := "dup", created_at := 5,
                      read := false, source := "misskey" }],
          myReadContent := [("dup", 1000)] }
      = Yomi.processNextNote
          { nostrPubkey := none, blueskyDid := none, misskeyId := some "me" } 30000 1
          { notes := Yomi.markReadAt
              [{ id := "n2", pubkey := "her", content := "hi", created_at := 9,
                 read := false, source := "misskey" },
               { id := "n1", pubkey := "me", content := "dup", created_at := 5,
                 read := false, source := "misskey" }] 1,
            myReadContent := [("dup", 1000)] } ∧
    Yomi.myReadLookup [("dup", 1000)] 61000 "dup" = none :=
  ⟨selfpost_dedup_C7.1 _ 30000 1000 1 _ 1 (by decide) (by decide) (by decide) (by decide),
    selfpost_dedup_C7.2.2.2 "dup" 1000 61000 [] (by decide)⟩

namespace Yomi

/-! ### Relay-list resolution (`fetchRelayList`, nostr/client.ts)

The promise keeps the newest kind-10002 and kind-3 documents seen, a hard
5-second timeout from subscription start, and a 1-second early-exit timer
armed inside the kind-10002 update branch only.  Incoming packets are
modelled as a timed trace (times in ms from start); `JSON.parse` of a
kind-3 content is abstracted as `contentKeys` (`none` when the content does
not parse, otherwise the object keys). -/

structure RelayDoc where
  kind : Int
  created_at : Int
  tags : List (List String)
  contentKeys : Option (List String)
deriving Repr, DecidableEq

/-- `event.tags.filter((tag) => tag[0] === 'r' && (!tag[2] || tag[2] !== 'read')).map((tag) => tag[1])`
(an absent tag entry reads as the empty string). -/
def relayTagUrls (tags : List (List String)) : List String :=
  (tags.filter (fun t => t.getD 0 "" == "r" && (t.getD 2 "" == "" || t.getD 2 "" != "read"))).map
    (fun t => t.getD 1 "")

/-- The host `String.prototype.startsWith`, on the character sequence. -/
def strBeginsWith (s pre : String) : Bool :=
  s.data.take pre.data.length == pre.data

/-- `Object.keys(content).filter((url) => url.startsWith('wss://') || url.startsWith('ws://'))`. -/
def kind3Urls (keys : List String) : List String :=
  keys.filter (fun u => strBeginsWith u "wss://" || strBeginsWith u "ws://")

/-- `!kindEvent || event.created_at > kindEvent.created_at`. -/
def newerThan (acc : Option (Int × List String)) (ca : Int) : Bool :=
  match acc with
  | none => true
  | some e => decide (e.1 < ca)

structure RLState where
  kind10002Event : Option (Int × List String)
  kind3Event : Option (Int × List String)
  shortDeadline : Option Int
deriving Repr, DecidableEq

def initRLState : RLState :=
  { kind10002Event := none, kind3Event := none, shortDeadline := none }

/-- The `next` handler of `fetchRelayList` for one event packet at `now`:
a newer kind-10002 updates the candidate and arms the 1-second early-exit
timer if it is not armed yet; a newer parseable kind-3 updates the legacy
candidate. -/
def relayListStep (now : Int) (st : RLState) (d : RelayDoc) : RLState :=
  if d.kind = 10002 then
    if newerThan st.kind10002Event d.created_at then
      { st with
          kind10002Event := some (d.created_at, relayTagUrls d.tags)
          shortDeadline := some (st.shortDeadline.getD (now + 1000)) }
    else st
  else if d.kind = 3 then
    if newerThan st.kind3Event d.created_at then
      match d.contentKeys with
      | some keys => { st with kind3Event := some (d.created_at, kind3Urls keys) }
      | none => st
    else st
  else st

/-- The earliest pending resolution deadline: the armed early-exit timer
raced against the hard 5-second timeout. -/
def rlDeadline (st : RLState) : Int :=
  match st.shortDeadline with
  | some d => min d 5000
  | none => 5000

/-- An incoming packet: an event, or subscription completion (EOSE), which
resolves immediately. -/
inductive RLIn where
  | evt (d : RelayDoc)
  | complete
deriving Repr, DecidableEq

/-- Run of the `fetchRelayList` promise over a timed packet trace: returns
the resolution time and the state at resolution.  A packet arriving at or
after the pending deadline finds the promise already resolved. -/
def fetchRelayListGo : RLState → List (Int × RLIn) → Int × RLState
  | st, [] => (rlDeadline st, st)
  | st, (t, inp) :: rest =>
    if rlDeadline st ≤ t then (rlDeadline st, st)
    else
      match inp with
      | .complete => (t, st)
      | .evt d => fetchRelayListGo (relayListStep t st d) rest

def FALLBACK_RELAYS_JA : List String :=
  ["wss://yabu.me", "wss://nostr.compile-error.net", "wss://r.kojira.io",
   "wss://relay-jp.nostr.wirednet.jp", "wss://nrelay-jp.c-stellar.net",
   "wss://nostream.ocha.one", "wss://snowflare.cc"]

def FALLBACK_RELAYS_EN : List String :=
  ["wss://relay.damus.io", "wss://nostr-pub.wellorder.net", "wss://offchain.pub",
   "wss://relay.snort.social"]

/-- `getFallbackRelays` of nostr/constants.ts; `lang` stands for
`navigator.language || 'en'`. -/
def getFallbackRelays (lang : String) : List String :=
  if strBeginsWith lang "ja" then FALLBACK_RELAYS_JA else FALLBACK_RELAYS_EN

def resolveKind3 (st : RLState) (fallback : List String) : List String :=
  match st.kind3Event with
  | some e3 => if 0 < e3.2.length then e3.2 else fallback
  | none => fallback

/-- `doResolve` of `fetchRelayList`: prefer the kind-10002 candidate when it
has relays, else the kind-3 candidate when it has relays, else the static
locale-selected fallback. -/
def doResolveResult (st : RLState) (fallback : List String) : List String :=
  match st.kind10002Event with
  | some e => if 0 < e.2.length then e.2 else resolveKind3 st fallback
  | none => resolveKind3 st fallback

def fetchRelayList (lang : String) (trace : List (Int × RLIn)) : Int × List String :=
  ((fetchRelayListGo initRLState trace).1,
    doResolveResult (fetchRelayListGo initRLState trace).2 (getFallbackRelays lang))

/-- The documents a run actually processes (those arriving strictly before
resolution). -/
def processedDocs : RLState → List (Int × RLIn) → List RelayDoc
  | _, [] => []
  | st, (t, inp) :: rest =>
    if rlDeadline st ≤ t then []
    else
      match inp with
      | .complete => []
      | .evt d => d :: processedDocs (relayListStep t st d) rest

/-- Spec-side fold: the newest kind-10002 document among a doc list. -/
def newest10002 (acc : Option (Int × List String)) : List RelayDoc → Option (Int × List String)
  | [] => acc
  | d :: rest =>
    if d.kind = 10002 then
      if newerThan acc d.created_at then
        newest10002 (some (d.created_at, relayTagUrls d.tags)) rest
      else newest10002 acc rest
    else newest10002 acc rest

/-- Spec-side fold: the newest parseable kind-3 document among a doc list
(documents claimed by the kind-10002 branch are skipped first, as in the
handler). -/
def newest3 (acc : Option (Int × List String)) : List RelayDoc → Option (Int × List String)
  | [] => acc
  | d :: rest =>
    if d.kind = 10002 then newest3 acc rest
    else if d.kind = 3 then
      if newerThan acc d.created_at then
        match d.contentKeys with
        | some keys => newest3 (some (d.created_at, kind3Urls keys)) rest
        | none => newest3 acc rest
      else newest3 acc rest
    else newest3 acc rest

def chooseKind3 (n3 : Option (Int × List String)) (fallback : List String) : List String :=
  match n3 with
  | some e3 => if 0 < e3.2.length then e3.2 else fallback
  | none => fallback

/-- Spec-side selection: the newest relay-list document's relays when
nonempty, else the newest contact-list document's relays when nonempty, else
the fallback. -/
def chooseRelays (n10 n3 : Option (Int × List String)) (fallback : List String) : List String :=
  match n10 with
  | some e => if 0 < e.2.length then e.2 else chooseKind3 n3 fallback
  | none => chooseKind3 n3 fallback

def is10002Evt (p : Int × RLIn) : Bool :=
  match p.2 with
  | .evt d => d.kind == 10002
  | .complete => false

theorem relayListStep_k10 (now : Int) (st : RLState) (d : RelayDoc) :
    (relayListStep now st d).kind10002Event =
      if d.kind = 10002 then
        if newerThan st.kind10002Event d.created_at then
          some (d.created_at, relayTagUrls d.tags)
        else st.kind10002Event
      else st.kind10002Event := by
  unfold relayListStep
  by_cases hk : d.kind = 10002
  · by_cases hn : newerThan st.kind10002Event d.created_at <;> simp [hk, hn]
  · by_cases hk3 : d.kind = 3
    · by_cases hn : newerThan st.kind3Event d.created_at
      · cases d.contentKeys <;> simp [hk, hk3, hn]
      · simp [hk, hk3, hn]
    · simp [hk, hk3]

theorem relayListStep_k3 (now : Int) (st : RLState) (d : RelayDoc) :
    (relayListStep now st d).kind3Event =
      if d.kind = 10002 then st.kind3Event
      else if d.kind = 3 then
        if newerThan st.kind3Event d.created_at then
          match d.contentKeys with
          | some keys => some (d.created_at, kind3Urls keys)
          | none => st.kind3Event
        else st.kind3Event
      else st.kind3Event := by
  unfold relayListStep
  by_cases hk : d.kind = 10002
  · by_cases hn : newerThan st.kind10002Event d.created_at <;> simp [hk, hn]
  · by_cases hk3 : d.kind = 3
    · by_cases hn : newerThan st.kind3Event d.created_at
      · cases d.contentKeys <;> simp [hk, hk3, hn]
      · simp [hk, hk3, hn]
    · simp [hk, hk3]

theorem relayListStep_pres {now : Int} {st : RLState} {d : RelayDoc}
    (hk : ¬ d.kind = 10002) :
    (relayListStep now st d).shortDeadline = st.shortDeadline ∧
    (relayListStep now st d).kind10002Event = st.kind10002Event := by
  unfold relayListStep
  by_cases hk3 : d.kind = 3
  · by_cases hn : newerThan st.kind3Event d.created_at
    · cases d.contentKeys <;> simp [hk, hk3, hn]
    · simp [hk, hk3, hn]
  · simp [hk, hk3]

theorem rlDeadline_step_le (now : Int) (st : RLState) (d : RelayDoc) :
    rlDeadline (relayListStep now st d) ≤ rlDeadline st := by
  by_cases hk : d.kind = 10002
  · by_cases hn : newerThan st.kind10002Event d.created_at
    · cases hsd : st.shortDeadline with
      | none => simp [relayListStep, hk, hn, rlDeadline, hsd]
      | some d0 => simp [relayListStep, hk, hn, rlDeadline, hsd]
    · simp [relayListStep, hk, hn]
  · have h := (@relayListStep_pres now st _ hk).1
    unfold rlDeadline
    rw [h]

theorem go_rt_le : ∀ (trace : List (Int × RLIn)) (st : RLState),
    (fetchRelayListGo st trace).1 ≤ rlDeadline st := by
  intro trace
  induction trace with
  | nil => intro st; exact le_refl _
  | cons p rest ih =>
      intro st
      obtain ⟨t, inp⟩ := p
      by_cases hstop : rlDeadline st ≤ t
      · simp [fetchRelayListGo, hstop]
      · cases inp with
        | complete =>
            simp only [fetchRelayListGo, if_neg hstop]
            omega
        | evt d =>
            simp only [fetchRelayListGo, if_neg hstop]
            exact le_trans (ih (relayListStep t st d)) (rlDeadline_step_le t st d)

theorem rlDeadline_le_5000 (st : RLState) : rlDeadline st ≤ 5000 := by
  unfold rlDeadline
  cases st.shortDeadline with
  | none => exact le_refl _
  | some d => exact min_le_right _ _

theorem go_early : ∀ (pre : List (Int × RLIn)) (st : RLState) (t : Int) (d : RelayDoc)
    (post : List (Int × RLIn)),
    st.shortDeadline = none → st.kind10002Event = none → d.kind = 10002 →
    (∀ p ∈ pre, p.1 ≤ t) → (∀ p ∈ pre, is10002Evt p = false) →
    (fetchRelayListGo st (pre ++ (t, .evt d) :: post)).1 ≤ t + 1000 := by
  intro pre
  induction pre with
  | nil =>
      intro st t d post hsd hk10 hkind _ _
      rw [List.nil_append]
      by_cases hstop : rlDeadline st ≤ t
      · simp only [fetchRelayListGo, if_pos hstop]
        omega
      · simp only [fetchRelayListGo, if_neg hstop]
        have hstep : (relayListStep t st d).shortDeadline = some (t + 1000) := by
          unfold relayListStep
          rw [if_pos hkind, if_pos (by simp [newerThan, hk10])]
          simp [hsd]
        have hDL : rlDeadline (relayListStep t st d) ≤ t + 1000 := by
          unfold rlDeadline
          rw [hstep]
          exact min_le_left _ _
        exact le_trans (go_rt_le post _) hDL
  | cons p pre ih =>
      intro st t d post hsd hk10 hkind htime h10
      obtain ⟨t0, inp0⟩ := p
      have ht0 : t0 ≤ t := htime (t0, inp0) (by simp)
      rw [List.cons_append]
      by_cases hstop : rlDeadline st ≤ t0
      · simp only [fetchRelayListGo, if_pos hstop]
        omega
      · cases inp0 with
        | complete =>
            simp only [fetchRelayListGo, if_neg hstop]
            omega
        | evt d0 =>
            have hk0 : ¬ d0.kind = 10002 := by
              have := h10 (t0, .evt d0) (by simp)
              simpa [is10002Evt] using this
            have hpres := @relayListStep_pres t0 st _ hk0
            simp only [fetchRelayListGo, if_neg hstop]
            refine ih (relayListStep t0 st d0) t d post ?_ ?_ hkind ?_ ?_
            · rw [hpres.1, hsd]
            · rw [hpres.2, hk10]
            · intro p hp; exact htime p (List.mem_cons_of_mem _ hp)
            · intro p hp; exact h10 p (List.mem_cons_of_mem _ hp)

theorem go_k10 : ∀ (trace : List (Int × RLIn)) (st : RLState),
    ((fetchRelayListGo st trace).2).kind10002Event
      = newest10002 st.kind10002Event (processedDocs st trace) := by
  intro trace
  induction trace with
  | nil => intro st; rfl
  | cons p rest ih =>
      intro st
      obtain ⟨t, inp⟩ := p
      by_cases hstop : rlDeadline st ≤ t
      · simp [fetchRelayListGo, processedDocs, hstop, newest10002]
      · cases inp with
        | complete => simp [fetchRelayListGo, processedDocs, hstop, newest10002]
        | evt d =>
            simp only [fetchRelayListGo, processedDocs, if_neg hstop]
            rw [ih (relayListStep t st d), relayListStep_k10]
            by_cases hk : d.kind = 10002
            · by_cases hn : newerThan st.kind10002Event d.created_at
              · simp [newest10002, hk, hn]
              · simp [newest10002, hk, hn]
            · simp [newest10002, hk]

theorem go_k3 : ∀ (trace : List (Int × RLIn)) (st : RLState),
    ((fetchRelayListGo st trace).2).kind3Event
      = newest3 st.kind3Event (processedDocs st trace) := by
  intro trace
  induction trace with
  | nil => intro st; rfl
  | cons p rest ih =>
      intro st
      obtain ⟨t, inp⟩ := p
      by_cases hstop : rlDeadline st ≤ t
      · simp [fetchRelayListGo, processedDocs, hstop, newest3]
      · cases inp with
        | complete => simp [fetchRelayListGo, processedDocs, hstop, newest3]
        | evt d =>
            simp only [fetchRelayListGo, processedDocs, if_neg hstop]
            rw [ih (relayListStep t st d), relayListStep_k3]
            by_cases hk : d.kind = 10002
            · simp [newest3, hk]
            · by_cases hk3 : d.kind = 3
              · by_cases hn : newerThan st.kind3Event d.created_at
                · cases hck : d.contentKeys <;> simp [newest3, hk, hk3, hn, hck]
                · simp [newest3, hk, hk3, hn]
              · simp [newest3, hk, hk3]

theorem doResolveResult_choose (st : RLState) (fb : List String) :
    doResolveResult st fb = chooseRelays st.kind10002Event st.kind3Event fb := by
  unfold doResolveResult chooseRelays resolveKind3 chooseKind3
  cases st.kind10002Event <;> cases st.kind3Event <;> rfl

end Yomi

/-- C8 counterexample: a contact-list (kind 3) document arriving at t = 0
does not arm the 1-second early-exit — the run still resolves only at the
hard 5-second timeout (with the kind-3 relays), refuting "exits early
1 second after any candidate document has arrived". -/
theorem relay_resolution_C8_counterexample :
    (Yomi.fetchRelayList "en"
        [(0, .evt { kind := 3, created_at := 1, tags := [],
                    contentKeys := some ["wss://a.example", "https://x.example"] })]).1
      = 5000 ∧
    ¬ (Yomi.fetchRelayList "en"
        [(0, .evt { kind := 3, created_at := 1, tags := [],
                    contentKeys := some ["wss://a.example", "https://x.example"] })]).1
      ≤ 0 + 1000 ∧
    (Yomi.fetchRelayList "en"
        [(0, .evt { kind := 3, created_at := 1, tags := [],
                    contentKeys := some ["wss://a.example", "https://x.example"] })]).2
      = ["wss://a.example"] := by
  refine ⟨by decide, by decide, by decide⟩

/-- C8 (amended): `fetchRelayList` resolves within the hard 5-second
timeout; it exits early 1 second after the first relay-list (kind 10002)
document arrives — a kind-3 document does not arm the early exit —; and it
resolves to the newest processed kind-10002 document's relays when that set
is non-empty, preferring it over the kind-3 document, else to the newest
parseable kind-3 document's relays when non-empty, else to the static
locale-selected fallback relay set. -/
theorem relay_resolution_C8_amended :
    (∀ (lang : String) (trace : List (Int × Yomi.RLIn)),
      (Yomi.fetchRelayList lang trace).1 ≤ 5000) ∧
    (∀ (lang : String) (pre : List (Int × Yomi.RLIn)) (t : Int) (d : Yomi.RelayDoc)
        (post : List (Int × Yomi.RLIn)),
      d.kind = 10002 →
      (∀ p ∈ pre, p.1 ≤ t) → (∀ p ∈ pre, Yomi.is10002Evt p = false) →
      (Yomi.fetchRelayList lang (pre ++ (t, .evt d) :: post)).1 ≤ t + 1000) ∧
    (∀ (lang : String) (trace : List (Int × Yomi.RLIn)),
      (Yomi.fetchRelayList lang trace).2
        = Yomi.chooseRelays
            (Yomi.newest10002 none (Yomi.processedDocs Yomi.initRLState trace))
            (Yomi.newest3 none (Yomi.processedDocs Yomi.initRLState trace))
            (Yomi.getFallbackRelays lang)) := by
  refine ⟨?_, ?_, ?_⟩
  · intro lang trace
    exact le_trans (Yomi.go_rt_le trace Yomi.initRLState)
      (Yomi.rlDeadline_le_5000 Yomi.initRLState)
  · intro lang pre t d post hkind htime h10
    exact Yomi.go_early pre Yomi.initRLState t d post rfl rfl hkind htime h10
  · intro lang trace
    show Yomi.doResolveResult (Yomi.fetchRelayListGo Yomi.initRLState trace).2 _ = _
    rw [Yomi.doResolveResult_choose, Yomi.go_k10, Yomi.go_k3]
    rfl

/-- Witness for the amended C8 at a concrete input: a kind-10002 document
arriving at t = 0 resolves the run within 1 second. -/
theorem relay_resolution_C8_amended_witness :
    (Yomi.fetchRelayList "en"
        [((0 : Int), .evt { kind := 10002, created_at := 1,
                            tags := [["r", "wss://b.example"]], contentKeys := none })]).1
      ≤ 0 + 1000 :=
  relay_resolution_C8_amended.2.1 "en" [] 0
    { kind := 10002, created_at := 1, tags := [["r", "wss://b.example"]], contentKeys := none }
    [] rfl (by simp) (by simp)

namespace Yomi

/-! ### Bluesky authenticated fetch with one refresh-and-retry (Bluesky module)

`getTimeline` and `peekLatest` issue one bearer-authenticated fetch; on
status 400 they call `refreshSession()` once and, when it succeeds and a
session remains, retry the fetch once; any remaining failure surfaces as an
empty list / `null`.  Network outcomes are inputs; the models also count the
authed timeline fetches and `refreshSession` calls performed. -/

structure BskySession where
  did : String
  handle : String
  accessJwt : String
  refreshJwt : String
deriving Repr, DecidableEq

structure HttpResp where
  status : Int
  feed : List BlueskyFeedItem
deriving Repr, DecidableEq

/-- The host `Response.ok` (status in 200..299). -/
def HttpResp.isOk (r : HttpResp) : Bool :=
  decide (200 ≤ r.status) && decide (r.status < 300)

inductive FetchOutcome where
  | resp (r : HttpResp)
  | thrown
deriving Repr, DecidableEq

/-- Outcome of the refresh endpoint round-trip. -/
inductive RefreshOutcome where
  | resp (ok : Bool) (newSession : BskySession)
  | thrown
deriving Repr, DecidableEq

/-- `refreshSession()`: no-op failure without a refresh token; on a
non-ok response the session is cleared; on a thrown fetch the session is
kept; returns whether the refresh succeeded. -/
def refreshSession (sess : Option BskySession) (net : RefreshOutcome) :
    Option BskySession × Bool :=
  match sess with
  | none => (none, false)
  | some s =>
    if s.refreshJwt = "" then (some s, false)
    else
      match net with
      | .thrown => (some s, false)
      | .resp ok newS => if ok then (some newS, true) else (none, false)

structure BskyCallResult where
  posts : List BlueskyPost
  fetches : Nat
  refreshes : Nat
deriving Repr, DecidableEq

/-- `getTimeline(since?)`: one authed fetch; on status 400 exactly one
`refreshSession` and (when it succeeds with a session) exactly one retry;
every failure path returns `[]`. -/
def getTimeline (sess : Option BskySession) (since : Option String)
    (r1 : FetchOutcome) (refreshNet : RefreshOutcome) (r2 : FetchOutcome) : BskyCallResult :=
  match sess with
  | none => { posts := [], fetches := 0, refreshes := 0 }
  | some _ =>
    match r1 with
    | .thrown => { posts := [], fetches := 1, refreshes := 0 }
    | .resp res =>
      if res.status = 400 then
        if ((refreshSession sess refreshNet).2 &&
            (refreshSession sess refreshNet).1.isSome) then
          match r2 with
          | .thrown => { posts := [], fetches := 2, refreshes := 1 }
          | .resp res2 =>
            if res2.isOk then
              { posts := blueskyFilterFeed since res2.feed, fetches := 2, refreshes := 1 }
            else { posts := [], fetches := 2, refreshes := 1 }
        else { posts := [], fetches := 1, refreshes := 1 }
      else if res.isOk then
        { posts := blueskyFilterFeed since res.feed, fetches := 1, refreshes := 0 }
      else { posts := [], fetches := 1, refreshes := 0 }

/-- `data.feed?.[0]` of `peekLatest`, with the `!createdAt` and
`createdAt <= since` guards. -/
def peekExtract (since : Option String) (feed : List BlueskyFeedItem) : Option String :=
  match feed.head? with
  | none => none
  | some item =>
    if item.recordCreatedAt = "" then none
    else if sinceSkip since item.recordCreatedAt then none
    else some item.recordCreatedAt

structure BskyPeekResult where
  result : Option String
  fetches : Nat
  refreshes : Nat
deriving Repr, DecidableEq

/-- `peekLatest(since?)`: the single-item probe, with the same one
refresh-and-retry shape; every failure path returns `null`. -/
def peekLatest (sess : Option BskySession) (since : Option String)
    (r1 : FetchOutcome) (refreshNet : RefreshOutcome) (r2 : FetchOutcome) : BskyPeekResult :=
  match sess with
  | none => { result := none, fetches := 0, refreshes := 0 }
  | some _ =>
    match r1 with
    | .thrown => { result := none, fetches := 1, refreshes := 0 }
    | .resp res =>
      if res.status = 400 then
        if ((refreshSession sess refreshNet).2 &&
            (refreshSession sess refreshNet).1.isSome) then
          match r2 with
          | .thrown => { result := none, fetches := 2, refreshes := 1 }
          | .resp res2 =>
            if res2.isOk then
              { result := peekExtract since res2.feed, fetches := 2, refreshes := 1 }
            else { result := none, fetches := 2, refreshes := 1 }
        else { result := none, fetches := 1, refreshes := 1 }
      else if res.isOk then
        { result := peekExtract since res.feed, fetches := 1, refreshes := 0 }
      else { result := none, fetches := 1, refreshes := 0 }

end Yomi

/-- C9: on an auth-expired (status 400) response, `getTimeline` and
`peekLatest` perform exactly one transparent session refresh; when the
refresh succeeds they perform exactly one retry of the original request;
when the refresh fails there is no retry and the operation surfaces the
benign value (`[]` / `null`); when the retried request fails (thrown or
non-ok) the benign value is surfaced with no further retry; and on a
non-400 response no refresh happens and only the single original request is
made. -/
theorem bluesky_refresh_retry_C9 :
    (∀ (s : Yomi.BskySession) (since : Option String) (res1 : Yomi.HttpResp)
        (rn : Yomi.RefreshOutcome) (r2 : Yomi.FetchOutcome),
      res1.status = 400 →
      ((Yomi.refreshSession (some s) rn).2 && (Yomi.refreshSession (some s) rn).1.isSome) = true →
      (Yomi.getTimeline (some s) since (.resp res1) rn r2).refreshes = 1 ∧
      (Yomi.getTimeline (some s) since (.resp res1) rn r2).fetches = 2 ∧
      (Yomi.peekLatest (some s) since (.resp res1) rn r2).refreshes = 1 ∧
      (Yomi.peekLatest (some s) since (.resp res1) rn r2).fetches = 2) ∧
    (∀ (s : Yomi.BskySession) (since : Option String) (res1 : Yomi.HttpResp)
        (rn : Yomi.RefreshOutcome) (r2 : Yomi.FetchOutcome),
      res1.status = 400 →
      ((Yomi.refreshSession (some s) rn).2 && (Yomi.refreshSession (some s) rn).1.isSome) = false →
      Yomi.getTimeline (some s) since (.resp res1) rn r2
        = { posts := [], fetches := 1, refreshes := 1 } ∧
      Yomi.peekLatest (some s) since (.resp res1) rn r2
        = { result := none, fetches := 1, refreshes := 1 }) ∧
    (∀ (s : Yomi.BskySession) (since : Option String) (res1 res2 : Yomi.HttpResp)
        (rn : Yomi.RefreshOutcome),
      res1.status = 400 → res2.isOk = false →
      (Yomi.getTimeline (some s) since (.resp res1) rn (.resp res2)).posts = [] ∧
      (Yomi.getTimeline (some s) since (.resp res1) rn .thrown).posts = [] ∧
      (Yomi.peekLatest (some s) since (.resp res1) rn (.resp res2)).result = none ∧
      (Yomi.peekLatest (some s) since (.resp res1) rn .thrown).result = none) ∧
    (∀ (s : Yomi.BskySession) (since : Option String) (res1 : Yomi.HttpResp)
        (rn : Yomi.RefreshOutcome) (r2 : Yomi.FetchOutcome),
      ¬ res1.status = 400 →
      (Yomi.getTimeline (some s) since (.resp res1) rn r2).refreshes = 0 ∧
      (Yomi.getTimeline (some s) since (.resp res1) rn r2).fetches = 1 ∧
      (res1.isOk = false →
        (Yomi.getTimeline (some s) since (.resp res1) rn r2).posts = [] ∧
        (Yomi.peekLatest (some s) since (.resp res1) rn r2).result = none)) := by
  refine ⟨?_, ?_, ?_, ?_⟩
  · intro s since res1 rn r2 h400 hr
    cases r2 with
    | thrown => simp [Yomi.getTimeline, Yomi.peekLatest, h400, hr]
    | resp res2 =>
        by_cases hok : res2.isOk <;>
          simp [Yomi.getTimeline, Yomi.peekLatest, h400, hr, hok]
  · intro s since res1 rn r2 h400 hr
    constructor <;> simp [Yomi.getTimeline, Yomi.peekLatest, h400, hr]
  · intro s since res1 res2 rn h400 hok
    by_cases hr : ((Yomi.refreshSession (some s) rn).2 &&
        (Yomi.refreshSession (some s) rn).1.isSome) = true
    · refine ⟨?_, ?_, ?_, ?_⟩ <;>
        simp [Yomi.getTimeline, Yomi.peekLatest, h400, hr, hok]
    · rw [Bool.not_eq_true] at hr
      refine ⟨?_, ?_, ?_, ?_⟩ <;>
        simp [Yomi.getTimeline, Yomi.peekLatest, h400, hr, hok]
  · intro s since res1 rn r2 h400
    by_cases hok : res1.isOk <;>
      simp [Yomi.getTimeline, Yomi.peekLatest, h400, hok]

/-- Witness for C9 at a concrete input: a 400 response followed by a
successful refresh and an ok retry performs one refresh and two fetches in
both operations. -/
theorem bluesky_refresh_retry_C9_witness :
    (Yomi.getTimeline
        (some { did := "d", handle := "h", accessJwt := "a", refreshJwt := "r" }) none
        (.resp { status := 400, feed := [] })
        (.resp true { did := "d", handle := "h", accessJwt := "a2", refreshJwt := "r2" })
        (.resp { status := 200, feed := [] })).refreshes = 1 ∧
    (Yomi.getTimeline
        (some { did := "d", handle := "h", accessJwt := "a", refreshJwt := "r" }) none
        (.resp { status := 400, feed := [] })
        (.resp true { did := "d", handle := "h", accessJwt := "a2", refreshJwt := "r2" })
        (.resp { status := 200, feed := [] })).fetches = 2 ∧
    (Yomi.peekLatest
        (some { did := "d", handle := "h", accessJwt := "a", refreshJwt := "r" }) none
        (.resp { status := 400, feed := [] })
        (.resp true { did := "d", handle := "h", accessJwt := "a2", refreshJwt := "r2" })
        (.resp { status := 200, feed := [] })).refreshes = 1 ∧
    (Yomi.peekLatest
        (some { did := "d", handle := "h", accessJwt := "a", refreshJwt := "r" }) none
        (.resp { status := 400, feed := [] })
        (.resp true { did := "d", handle := "h", accessJwt := "a2", refreshJwt := "r2" })
        (.resp { status := 200, feed := [] })).fetches = 2 :=
  bluesky_refresh_retry_C9.1 _ none _ _ _ rfl (by decide)

namespace Yomi

/-! ### Custom Bech32 / NIP-19 codec (nostr/bech32.ts, nostr/utils.ts)

Strings are embedded as their character sequences.  The host `<<`, `>>`,
`&`, `|`, `^` are 32-bit operations; every value fed to them here stays
below `2^30` except the bit-accumulators of the base converters, whose
32-bit wrap (`% 2^32`) is modelled explicitly.  `throw` is modelled as
`none`. -/

/-- The five checksum generator constants. -/
def GENERATOR : List Nat := [0x3b6a57b2, 0x26508e6d, 0x1ea119fa, 0x3d4233dd, 0x2a1462b3]

/-- The generator feedback of one `polymod` step:
`for i in 0..4: if ((top >> i) & 1) chk ^= GENERATOR[i]`. -/
def polymodFeedback (top : Nat) : Nat :=
  (if (top >>> 0) &&& 1 = 1 then 0x3b6a57b2 else 0) ^^^
  ((if (top >>> 1) &&& 1 = 1 then 0x26508e6d else 0) ^^^
  ((if (top >>> 2) &&& 1 = 1 then 0x1ea119fa else 0) ^^^
  ((if (top >>> 3) &&& 1 = 1 then 0x3d4233dd else 0) ^^^
  (if (top >>> 4) &&& 1 = 1 then 0x2a1462b3 else 0))))

/-- One iteration of the `polymod` loop:
`top = chk >> 25; chk = ((chk & 0x1ffffff) << 5) ^ v;` plus the feedback. -/
def polymodStep (chk v : Nat) : Nat :=
  (((chk &&& 0x1ffffff) <<< 5) ^^^ v) ^^^ polymodFeedback (chk >>> 25)

def polymod (values : List Nat) : Nat := values.foldl polymodStep 1

/-- `hrpExpand`: high bits of each character, a zero, low 5 bits of each. -/
def hrpExpand (hrp : List Char) : List Nat :=
  (hrp.map (fun c => c.toNat >>> 5)) ++ [0] ++ (hrp.map (fun c => c.toNat &&& 31))

/-- `createChecksum`: six 5-bit groups of `polymod(expand ++ data ++ 0^6) ^ 1`,
most significant first (`(mod >> (5 * (5 - i))) & 31`). -/
def createChecksum (hrp : List Char) (data : List Nat) : List Nat :=
  [(((polymod (hrpExpand hrp ++ data ++ [0, 0, 0, 0, 0, 0])) ^^^ 1) >>> 25) &&& 31,
   (((polymod (hrpExpand hrp ++ data ++ [0, 0, 0, 0, 0, 0])) ^^^ 1) >>> 20) &&& 31,
   (((polymod (hrpExpand hrp ++ data ++ [0, 0, 0, 0, 0, 0])) ^^^ 1) >>> 15) &&& 31,
   (((polymod (hrpExpand hrp ++ data ++ [0, 0, 0, 0, 0, 0])) ^^^ 1) >>> 10) &&& 31,
   (((polymod (hrpExpand hrp ++ data ++ [0, 0, 0, 0, 0, 0])) ^^^ 1) >>> 5) &&& 31,
   (((polymod (hrpExpand hrp ++ data ++ [0, 0, 0, 0, 0, 0])) ^^^ 1) >>> 0) &&& 31]

def verifyChecksum (hrp : List Char) (data : List Nat) : Bool :=
  polymod (hrpExpand hrp ++ data) == 1

/-- The `while (bits >= 5)` loop body of `convertBits8to5`: emits
`(acc >> bits) & 31` chunks, most significant first, returning the leftover
bit count. -/
def popBits5 (acc : Nat) (bits : Nat) : List Nat × Nat :=
  if 5 ≤ bits then
    match popBits5 acc (bits - 5) with
    | (gs, bf) => (((acc >>> (bits - 5)) &&& 31) :: gs, bf)
  else ([], bits)
termination_by bits
decreasing_by omega

/-- The byte loop of `convertBits8to5`; `acc` carries the host 32-bit wrap. -/
def convertBits8to5Core : List Nat → Nat → Nat → (List Nat × Nat × Nat)
  | [], acc, bits => ([], acc, bits)
  | b :: rest, acc, bits =>
    let acc1 := ((acc <<< 8) ||| b) % 4294967296
    match popBits5 acc1 (bits + 8) with
    | (gs, bits1) =>
      match convertBits8to5Core rest acc1 bits1 with
      | (gs2, accF, bitsF) => (gs ++ gs2, accF, bitsF)

/-- `convertBits8to5` with its final padding push
(`(acc << (5 - bits)) & 31` when bits remain). -/
def convertBits8to5 (data : List Nat) : List Nat :=
  match convertBits8to5Core data 0 0 with
  | (gs, accF, bitsF) =>
    gs ++ (if 0 < bitsF then [(accF <<< (5 - bitsF)) &&& 31] else [])

/-- The `while (bits >= 8)` loop body of `convertBits5to8`. -/
def popBits8 (acc : Nat) (bits : Nat) : List Nat × Nat :=
  if 8 ≤ bits then
    match popBits8 acc (bits - 8) with
    | (bs, bf) => (((acc >>> (bits - 8)) &&& 255) :: bs, bf)
  else ([], bits)
termination_by bits
decreasing_by omega

def convertBits5to8Core : List Nat → Nat → Nat → (List Nat × Nat × Nat)
  | [], acc, bits => ([], acc, bits)
  | v :: rest, acc, bits =>
    let acc1 := ((acc <<< 5) ||| v) % 4294967296
    match popBits8 acc1 (bits + 5) with
    | (bs, bits1) =>
      match convertBits5to8Core rest acc1 bits1 with
      | (bs2, accF, bitsF) => (bs ++ bs2, accF, bitsF)

/-- `convertBits5to8` (no padding; leftover bits are dropped). -/
def convertBits5to8 (data : List Nat) : List Nat :=
  (convertBits5to8Core data 0 0).1

def CHARSET : List Char := "qpzry9x8gf2tvdw0s3jn54khce6mua7l".data

/-- `CHARSET_MAP.get(c)`: the index of `c` in the (duplicate-free) charset. -/
def charsetIndex (c : Char) : Option Nat :=
  CHARSET.findIdx? (fun x => x == c)

/-- `bech32Encode`: `hrp + '1' + charset chars of data5bit ++ checksum`. -/
def bech32Encode (hrp : List Char) (data : List Nat) : List Char :=
  hrp ++ ['1'] ++
    (convertBits8to5 data ++ createChecksum hrp (convertBits8to5 data)).map
      (fun d => CHARSET.getD d ' ')

/-- The host `toLowerCase` on a character sequence (inputs are ASCII). -/
def toLowerStr (s : List Char) : List Char := s.map Char.toLower

/-- The host `lastIndexOf` (`none` for −1). -/
def lastIndexOf (c : Char) : List Char → Option Nat
  | [] => none
  | x :: rest =>
    match lastIndexOf c rest with
    | some i => some (i + 1)
    | none => if x = c then some 0 else none

/-- The character-decoding loop of `bech32Decode` (early `null` on an
unknown character). -/
def mapCharset : List Char → Option (List Nat)
  | [] => some []
  | c :: rest =>
    match charsetIndex c with
    | none => none
    | some v =>
      match mapCharset rest with
      | none => none
      | some vs => some (v :: vs)

/-- `bech32Decode`: lowercase, split at the last `'1'`, decode the data
characters, verify the checksum, strip it (`slice(0, -6)`) and regroup to
bytes. -/
def bech32Decode (str : List Char) : Option (List Char × List Nat) :=
  match lastIndexOf '1' (toLowerStr str) with
  | none => none
  | some sepIndex =>
    if sepIndex < 1 ∨ (toLowerStr str).length < sepIndex + 7 then none
    else
      match mapCharset ((toLowerStr str).drop (sepIndex + 1)) with
      | none => none
      | some data5bit =>
        if verifyChecksum ((toLowerStr str).take sepIndex) data5bit then
          some ((toLowerStr str).take sepIndex,
            convertBits5to8 (data5bit.take (data5bit.length - 6)))
        else none

/-- `parseInt` on one hexadecimal digit (callers guarantee a valid digit;
the fallback 0 stands for the never-taken NaN path). -/
def hexDigitVal (c : Char) : Nat :=
  if '0' ≤ c ∧ c ≤ '9' then c.toNat - '0'.toNat
  else if 'a' ≤ c ∧ c ≤ 'f' then c.toNat - 'a'.toNat + 10
  else if 'A' ≤ c ∧ c ≤ 'F' then c.toNat - 'A'.toNat + 10
  else 0

/-- `hexToBytes`: `parseInt(hex.slice(i*2, i*2+2), 16)` per pair. -/
def hexToBytes : List Char → List Nat
  | c1 :: c2 :: rest => (16 * hexDigitVal c1 + hexDigitVal c2) :: hexToBytes rest
  | _ => []

/-- One lowercase hexadecimal digit (`Number.prototype.toString(16)`). -/
def hexChar (n : Nat) : Char :=
  if n < 10 then Char.ofNat ('0'.toNat + n) else Char.ofNat ('a'.toNat + n - 10)

/-- `b.toString(16).padStart(2, '0')` for a byte. -/
def byteToHexPair (b : Nat) : List Char := [hexChar (b / 16), hexChar (b % 16)]

def bytesToHex (bytes : List Nat) : List Char := (bytes.map byteToHexPair).flatten

/-- `npubEncode`: requires a 64-character key (`throw` is `none`). -/
def npubEncode (hex : String) : Option String :=
  if hex.length = 64 then
    some (String.mk (bech32Encode "npub".data (hexToBytes hex.data)))
  else none

/-- The TLV scan of the `nevent` branch of `nip19Decode` (fuel-bounded;
each iteration consumes at least two entries). -/
def neventFindId : Nat → List Nat → Option (List Nat)
  | 0, _ => none
  | _ + 1, [] => none
  | _ + 1, [_] => none
  | fuel + 1, t :: len :: rest =>
    if t = 0 ∧ len = 32 then some (rest.take 32)
    else neventFindId fuel (rest.drop len)

structure Nip19Result where
  type : String
  data : String
deriving Repr, DecidableEq

/-- `nip19Decode`. -/
def nip19Decode (str : String) : Option Nip19Result :=
  match bech32Decode str.data with
  | none => none
  | some (hrp, data) =>
    if hrp = "npub".data then
      if data.length = 32 then some ⟨"npub", String.mk (bytesToHex data)⟩ else none
    else if hrp = "nsec".data then
      if data.length = 32 then some ⟨"nsec", String.mk (bytesToHex data)⟩ else none
    else if hrp = "note".data then
      if data.length = 32 then some ⟨"note", String.mk (bytesToHex data)⟩ else none
    else if hrp = "nevent".data then
      match neventFindId (data.length + 1) data with
      | some idBytes => some ⟨"nevent", String.mk (bytesToHex idBytes)⟩
      | none => none
    else none

/-- `hexToNpub` of nostr/utils.ts. -/
def hexToNpub (hex : String) : Option String := npubEncode hex

def isWhitespaceChar (c : Char) : Bool :=
  c = ' ' || c = '\t' || c = '\n' || c = '\r'

/-- The host `trim` (the inputs at issue contain no whitespace). -/
def trimStr (s : List Char) : List Char :=
  ((s.dropWhile isWhitespaceChar).reverse.dropWhile isWhitespaceChar).reverse

def LOWER_HEX : List Char := "0123456789abcdef".data

def isLowerHexDigit (c : Char) : Bool := LOWER_HEX.contains c

/-- The character class of `/^[0-9a-f]{64}$/i`. -/
def isHexDigit (c : Char) : Bool := ("0123456789abcdefABCDEF".data).contains c

def isHex64 (s : List Char) : Bool := s.length == 64 && s.all isHexDigit

/-- `parseHexOrNpub` of nostr/utils.ts. -/
def parseHexOrNpub (input : String) : Option String :=
  if isHex64 (trimStr input.data) then some (String.mk (toLowerStr (trimStr input.data)))
  else if strBeginsWith (String.mk (trimStr input.data)) "npub1" then
    match nip19Decode (String.mk (trimStr input.data)) with
    | some r => if r.type = "npub" then some r.data else none
    | none => none
  else none

end Yomi

namespace Yomi

/-! Bit-level toolkit for the checksum and base-conversion proofs. -/

theorem natXor_left_comm (a b c : Nat) : a ^^^ (b ^^^ c) = b ^^^ (a ^^^ c) := by
  rw [← Nat.xor_assoc, Nat.xor_comm a b, Nat.xor_assoc]

theorem shiftLeft_xor_distrib (a b n : Nat) :
    (a ^^^ b) <<< n = (a <<< n) ^^^ (b <<< n) := by
  apply Nat.eq_of_testBit_eq
  intro i
  simp only [Nat.testBit_shiftLeft, Nat.testBit_xor]
  cases h : decide (n ≤ i) <;> simp

theorem shiftRight_xor_distrib (a b n : Nat) :
    (a ^^^ b) >>> n = (a >>> n) ^^^ (b >>> n) := by
  apply Nat.eq_of_testBit_eq
  intro i
  simp [Nat.testBit_shiftRight, Nat.testBit_xor]

theorem splitXor (n x : Nat) : ((x >>> n) <<< n) ^^^ (x % 2 ^ n) = x := by
  apply Nat.eq_of_testBit_eq
  intro i
  simp only [Nat.testBit_xor, Nat.testBit_shiftLeft, Nat.testBit_shiftRight,
    Nat.testBit_mod_two_pow]
  by_cases h : n ≤ i
  · have h2 : ¬ i < n := by omega
    have h3 : n + (i - n) = i := by omega
    simp [h, h2, h3]
  · have h2 : i < n := by omega
    simp [h, h2]

theorem ite_bit_xor (g a b : Nat) (ha : a ≤ 1) (hb : b ≤ 1) :
    (if a ^^^ b = 1 then g else 0)
      = (if a = 1 then g else 0) ^^^ (if b = 1 then g else 0) := by
  interval_cases a <;> interval_cases b <;> simp

theorem xor_interchange (a b c d : Nat) :
    (a ^^^ b) ^^^ (c ^^^ d) = (a ^^^ c) ^^^ (b ^^^ d) := by
  rw [Nat.xor_assoc, natXor_left_comm b c d, ← Nat.xor_assoc]

theorem polymodFeedback_xor (x y : Nat) :
    polymodFeedback (x ^^^ y) = polymodFeedback x ^^^ polymodFeedback y := by
  have key : ∀ (a0 b0 a1 b1 a2 b2 a3 b3 a4 b4 : Nat),
      (a0 ^^^ b0) ^^^ ((a1 ^^^ b1) ^^^ ((a2 ^^^ b2) ^^^ ((a3 ^^^ b3) ^^^ (a4 ^^^ b4))))
        = (a0 ^^^ (a1 ^^^ (a2 ^^^ (a3 ^^^ a4)))) ^^^ (b0 ^^^ (b1 ^^^ (b2 ^^^ (b3 ^^^ b4)))) := by
    intro a0 b0 a1 b1 a2 b2 a3 b3 a4 b4
    rw [xor_interchange a3 b3 a4 b4,
      xor_interchange a2 b2 (a3 ^^^ a4) (b3 ^^^ b4),
      xor_interchange a1 b1 (a2 ^^^ (a3 ^^^ a4)) (b2 ^^^ (b3 ^^^ b4)),
      xor_interchange a0 b0 (a1 ^^^ (a2 ^^^ (a3 ^^^ a4))) (b1 ^^^ (b2 ^^^ (b3 ^^^ b4)))]
  unfold polymodFeedback
  have hbit : ∀ (i : Nat), ((x ^^^ y) >>> i) &&& 1
      = (((x >>> i) &&& 1) ^^^ ((y >>> i) &&& 1)) := by
    intro i
    rw [shiftRight_xor_distrib, Nat.and_xor_distrib_right]
  have hle : ∀ (z i : Nat), (z >>> i) &&& 1 ≤ 1 := fun z i => Nat.and_le_right
  rw [hbit 0, hbit 1, hbit 2, hbit 3, hbit 4,
    ite_bit_xor _ _ _ (hle x 0) (hle y 0), ite_bit_xor _ _ _ (hle x 1) (hle y 1),
    ite_bit_xor _ _ _ (hle x 2) (hle y 2), ite_bit_xor _ _ _ (hle x 3) (hle y 3),
    ite_bit_xor _ _ _ (hle x 4) (hle y 4)]
  exact key _ _ _ _ _ _ _ _ _ _

theorem polymodStep_affine (c v : Nat) :
    polymodStep c v = polymodStep c 0 ^^^ v := by
  unfold polymodStep
  simp only [Nat.xor_zero]
  simp only [Nat.xor_assoc]
  rw [Nat.xor_comm v (polymodFeedback (c >>> 25))]

theorem polymodStep_zero_linear (a b : Nat) :
    polymodStep (a ^^^ b) 0 = polymodStep a 0 ^^^ polymodStep b 0 := by
  unfold polymodStep
  simp only [Nat.xor_zero]
  rw [Nat.and_xor_distrib_right, shiftLeft_xor_distrib, shiftRight_xor_distrib,
    polymodFeedback_xor]
  exact xor_interchange _ _ _ _

theorem polymodStep_zero_small {v : Nat} (h : v < 2 ^ 25) :
    polymodStep v 0 = v <<< 5 := by
  unfold polymodStep
  have h1 : v &&& 0x1ffffff = v := by
    have : (0x1ffffff : Nat) = 2 ^ 25 - 1 := by norm_num
    rw [this, Nat.and_pow_two_sub_one_eq_mod, Nat.mod_eq_of_lt h]
  have h2 : v >>> 25 = 0 := by
    rw [Nat.shiftRight_eq_div_pow]
    exact Nat.div_eq_of_lt h
  rw [h1, h2]
  have h3 : polymodFeedback 0 = 0 := by decide
  rw [h3]
  simp

def iterL : Nat → Nat → Nat
  | 0, m => m
  | k + 1, m => iterL k (polymodStep m 0)

theorem iterL_linear (k : Nat) : ∀ (a b : Nat), iterL k (a ^^^ b) = iterL k a ^^^ iterL k b := by
  induction k with
  | zero => intro a b; rfl
  | succ n ih =>
      intro a b
      simp only [iterL]
      rw [polymodStep_zero_linear]
      exact ih _ _

theorem iterL_small : ∀ (k j d : Nat), d < 2 ^ j → j + 5 * k ≤ 30 →
    iterL k d = d <<< (5 * k) := by
  intro k
  induction k with
  | zero => intro j d _ _; simp [iterL]
  | succ n ih =>
      intro j d hd hj
      have hd25 : d < 2 ^ 25 :=
        lt_of_lt_of_le hd (pow_le_pow_right₀ (by omega) (by omega))
      simp only [iterL]
      rw [polymodStep_zero_small hd25]
      have hshift : d <<< 5 < 2 ^ (j + 5) := by
        rw [Nat.shiftLeft_eq, pow_add]
        exact Nat.mul_lt_mul_of_pos_right hd (by norm_num)
      rw [ih (j + 5) (d <<< 5) hshift (by omega), ← Nat.shiftLeft_add]
      congr 1
      omega

def digitsTD : Nat → Nat → List Nat
  | 0, _ => []
  | k + 1, x => (x >>> (5 * k)) :: digitsTD k (x % 2 ^ (5 * k))

theorem foldl_digits : ∀ (k : Nat), k ≤ 6 → ∀ (m x : Nat), x < 2 ^ (5 * k) →
    (digitsTD k x).foldl polymodStep m = iterL k m ^^^ x := by
  intro k
  induction k with
  | zero =>
      intro _ m x hx
      have hx0 : x = 0 := by
        have : x < 1 := by simpa using hx
        omega
      simp [digitsTD, iterL, hx0]
  | succ n ih =>
      intro hk m x hx
      simp only [digitsTD, List.foldl_cons]
      have hd : x >>> (5 * n) < 32 := by
        rw [Nat.shiftRight_eq_div_pow]
        rw [Nat.div_lt_iff_lt_mul (Nat.pos_pow_of_pos _ (by omega))]
        calc x < 2 ^ (5 * (n + 1)) := hx
          _ = 32 * 2 ^ (5 * n) := by
              rw [show 5 * (n + 1) = 5 + 5 * n by omega, pow_add]
              norm_num
      have hmod : x % 2 ^ (5 * n) < 2 ^ (5 * n) :=
        Nat.mod_lt _ (Nat.pos_pow_of_pos _ (by omega))
      rw [ih (by omega) (polymodStep m (x >>> (5 * n))) (x % 2 ^ (5 * n)) hmod]
      rw [polymodStep_affine, iterL_linear]
      rw [iterL_small n 5 (x >>> (5 * n)) hd (by omega)]
      rw [Nat.xor_assoc, splitXor (5 * n) x]
      rfl

theorem polymodFeedback_lt (t : Nat) : polymodFeedback t < 2 ^ 30 := by
  unfold polymodFeedback
  refine Nat.xor_lt_two_pow ?_ (Nat.xor_lt_two_pow ?_ (Nat.xor_lt_two_pow ?_
    (Nat.xor_lt_two_pow ?_ ?_))) <;> split <;> norm_num

theorem polymodStep_lt {v : Nat} (c : Nat) (hv : v < 2 ^ 30) :
    polymodStep c v < 2 ^ 30 := by
  unfold polymodStep
  refine Nat.xor_lt_two_pow (Nat.xor_lt_two_pow ?_ hv) (polymodFeedback_lt _)
  have h1 : c &&& 0x1ffffff ≤ 0x1ffffff := Nat.and_le_right
  rw [Nat.shiftLeft_eq]
  norm_num
  omega

theorem polymod_foldl_lt : ∀ (values : List Nat) (init : Nat), init < 2 ^ 30 →
    (∀ v ∈ values, v < 2 ^ 30) → values.foldl polymodStep init < 2 ^ 30 := by
  intro values
  induction values with
  | nil => intro init h _; simpa using h
  | cons v rest ih =>
      intro init _ hv
      simp only [List.foldl_cons]
      exact ih (polymodStep init v) (polymodStep_lt init (hv v (by simp)))
        (fun w hw => hv w (by simp [hw]))

theorem hrpExpand_lt (hrp : List Char) : ∀ v ∈ hrpExpand hrp, v < 2 ^ 30 := by
  intro v hv
  unfold hrpExpand at hv
  rcases List.mem_append.mp hv with h1 | h2
  · rcases List.mem_append.mp h1 with h3 | h4
    · rcases List.mem_map.mp h3 with ⟨c, _, hc⟩
      rw [← hc, Nat.shiftRight_eq_div_pow]
      have h32 : c.toNat < 4294967296 := UInt32.toNat_lt_size c.val
      have : c.toNat / 2 ^ 5 < 2 ^ 27 := by
        rw [Nat.div_lt_iff_lt_mul (by norm_num)]
        omega
      calc c.toNat / 2 ^ 5 < 2 ^ 27 := this
        _ ≤ 2 ^ 30 := by norm_num
    · have : v = 0 := by simpa using h4
      omega
  · rcases List.mem_map.mp h2 with ⟨c, _, hc⟩
    have : v ≤ 31 := by rw [← hc]; exact Nat.and_le_right
    omega

theorem digit_eq (x a : Nat) : (x % 2 ^ (a + 5)) >>> a = (x >>> a) &&& 31 := by
  rw [Nat.shiftRight_eq_div_pow, Nat.shiftRight_eq_div_pow, pow_add,
    Nat.mod_mul_right_div_self]
  rw [show (31 : Nat) = 2 ^ 5 - 1 by norm_num, Nat.and_pow_two_sub_one_eq_mod]

theorem createChecksum_eq_digits (hrp : List Char) (data : List Nat)
    (h : (polymod (hrpExpand hrp ++ data ++ [0, 0, 0, 0, 0, 0])) ^^^ 1 < 2 ^ 30) :
    createChecksum hrp data
      = digitsTD 6 ((polymod (hrpExpand hrp ++ data ++ [0, 0, 0, 0, 0, 0])) ^^^ 1) := by
  unfold createChecksum
  set x := (polymod (hrpExpand hrp ++ data ++ [0, 0, 0, 0, 0, 0])) ^^^ 1 with hx
  have hdig : digitsTD 6 x
      = [x >>> 25, (x % 2 ^ 25) >>> 20, (x % 2 ^ 25 % 2 ^ 20) >>> 15,
         (x % 2 ^ 25 % 2 ^ 20 % 2 ^ 15) >>> 10,
         (x % 2 ^ 25 % 2 ^ 20 % 2 ^ 15 % 2 ^ 10) >>> 5,
         (x % 2 ^ 25 % 2 ^ 20 % 2 ^ 15 % 2 ^ 10 % 2 ^ 5) >>> 0] := rfl
  have m25 : x % 2 ^ 25 % 2 ^ 20 = x % 2 ^ 20 :=
    Nat.mod_mod_of_dvd x (pow_dvd_pow 2 (by omega))
  have m20 : x % 2 ^ 20 % 2 ^ 15 = x % 2 ^ 15 :=
    Nat.mod_mod_of_dvd x (pow_dvd_pow 2 (by omega))
  have m15 : x % 2 ^ 15 % 2 ^ 10 = x % 2 ^ 10 :=
    Nat.mod_mod_of_dvd x (pow_dvd_pow 2 (by omega))
  have m10 : x % 2 ^ 10 % 2 ^ 5 = x % 2 ^ 5 :=
    Nat.mod_mod_of_dvd x (pow_dvd_pow 2 (by omega))
  have e0 : x >>> 25 = (x >>> 25) &&& 31 := by
    have hlt : x >>> 25 < 2 ^ 5 := by
      rw [Nat.shiftRight_eq_div_pow]
      rw [Nat.div_lt_iff_lt_mul (by norm_num)]
      calc x < 2 ^ 30 := h
        _ = 2 ^ 5 * 2 ^ 25 := by norm_num
    rw [show (31 : Nat) = 2 ^ 5 - 1 by norm_num,
      Nat.and_pow_two_sub_one_of_lt_two_pow hlt]
  have e1 : (x % 2 ^ 25) >>> 20 = (x >>> 20) &&& 31 := digit_eq x 20
  have e2 : (x % 2 ^ 20) >>> 15 = (x >>> 15) &&& 31 := digit_eq x 15
  have e3 : (x % 2 ^ 15) >>> 10 = (x >>> 10) &&& 31 := digit_eq x 10
  have e4 : (x % 2 ^ 10) >>> 5 = (x >>> 5) &&& 31 := digit_eq x 5
  have e5 : (x % 2 ^ 5) >>> 0 = (x >>> 0) &&& 31 := by
    rw [Nat.shiftRight_zero, Nat.shiftRight_zero,
      show (31 : Nat) = 2 ^ 5 - 1 by norm_num, Nat.and_pow_two_sub_one_eq_mod]
  rw [hdig, m25, m20, m15, m10, e1, e2, e3, e4, e5, ← e0]

theorem polymod_append_zeros (hrp : List Char) (data : List Nat) :
    polymod (hrpExpand hrp ++ data ++ [0, 0, 0, 0, 0, 0])
      = iterL 6 (polymod (hrpExpand hrp ++ data)) := by
  unfold polymod
  rw [List.foldl_append]
  rfl

/-- Bech32 checksum correctness: the checksum appended by `createChecksum`
always verifies. -/
theorem createChecksum_valid (hrp : List Char) (data : List Nat)
    (hdata : ∀ v ∈ data, v < 2 ^ 30) :
    verifyChecksum hrp (data ++ createChecksum hrp data) = true := by
  have polymod_append : ∀ (l1 l2 : List Nat),
      polymod (l1 ++ l2) = List.foldl polymodStep (polymod l1) l2 := by
    intro l1 l2
    unfold polymod
    rw [List.foldl_append]
  have hvals : ∀ v ∈ hrpExpand hrp ++ data, v < 2 ^ 30 := by
    intro v hv
    rcases List.mem_append.mp hv with h1 | h2
    · exact hrpExpand_lt hrp v h1
    · exact hdata v h2
  have hM : polymod (hrpExpand hrp ++ data) < 2 ^ 30 :=
    polymod_foldl_lt _ 1 (by norm_num) hvals
  have hm0 : polymod (hrpExpand hrp ++ data ++ [0, 0, 0, 0, 0, 0]) < 2 ^ 30 := by
    refine polymod_foldl_lt _ 1 (by norm_num) ?_
    intro v hv
    rcases List.mem_append.mp hv with h1 | h2
    · exact hvals v h1
    · have : v = 0 := by simpa using h2
      omega
  have hmod : (polymod (hrpExpand hrp ++ data ++ [0, 0, 0, 0, 0, 0])) ^^^ 1 < 2 ^ 30 :=
    Nat.xor_lt_two_pow hm0 (by norm_num)
  unfold verifyChecksum
  rw [createChecksum_eq_digits hrp data hmod, ← List.append_assoc, polymod_append]
  have hfold := foldl_digits 6 (le_refl 6) (polymod (hrpExpand hrp ++ data))
    ((polymod (hrpExpand hrp ++ data ++ [0, 0, 0, 0, 0, 0])) ^^^ 1) (by exact hmod)
  rw [hfold, polymod_append_zeros, Nat.xor_cancel_left]
  rfl

/-- Big-endian value of a digit list in base `2^w`. -/
def bitsVal (w : Nat) (gs : List Nat) : Nat :=
  gs.foldl (fun x g => x * 2 ^ w + g) 0

theorem bitsVal_acc (w : Nat) : ∀ (gs : List Nat) (a : Nat),
    gs.foldl (fun x g => x * 2 ^ w + g) a
      = a * 2 ^ (w * gs.length) + bitsVal w gs := by
  intro gs
  induction gs with
  | nil => intro a; simp [bitsVal]
  | cons g rest ih =>
      intro a
      simp only [List.foldl_cons, List.length_cons]
      rw [ih (a * 2 ^ w + g)]
      have hval : bitsVal w (g :: rest) = g * 2 ^ (w * rest.length) + bitsVal w rest := by
        unfold bitsVal
        simp only [List.foldl_cons]
        rw [ih (0 * 2 ^ w + g)]
        simp [bitsVal]
      rw [hval, show w * (rest.length + 1) = w + w * rest.length by ring, pow_add]
      ring

theorem bitsVal_cons (w g : Nat) (gs : List Nat) :
    bitsVal w (g :: gs) = g * 2 ^ (w * gs.length) + bitsVal w gs := by
  unfold bitsVal
  simp only [List.foldl_cons]
  rw [bitsVal_acc]
  simp [bitsVal]

theorem bitsVal_append (w : Nat) (l1 l2 : List Nat) :
    bitsVal w (l1 ++ l2) = bitsVal w l1 * 2 ^ (w * l2.length) + bitsVal w l2 := by
  unfold bitsVal
  rw [List.foldl_append]
  rw [bitsVal_acc]
  rfl

theorem bitsVal_lt (w : Nat) : ∀ (gs : List Nat), (∀ x ∈ gs, x < 2 ^ w) →
    bitsVal w gs < 2 ^ (w * gs.length) := by
  intro gs
  induction gs with
  | nil => intro _; simp [bitsVal]
  | cons g rest ih =>
      intro h
      rw [bitsVal_cons]
      have hg : g < 2 ^ w := h g (by simp)
      have hv : bitsVal w rest < 2 ^ (w * rest.length) := ih (fun x hx => h x (by simp [hx]))
      have : g * 2 ^ (w * rest.length) + bitsVal w rest
          < (g + 1) * 2 ^ (w * rest.length) := by
        rw [Nat.add_mul, one_mul]
        omega
      calc g * 2 ^ (w * rest.length) + bitsVal w rest
          < (g + 1) * 2 ^ (w * rest.length) := this
        _ ≤ 2 ^ w * 2 ^ (w * rest.length) := by
            exact Nat.mul_le_mul_right _ (by omega)
        _ = 2 ^ (w * (rest.length + 1)) := by
            rw [← pow_add]
            congr 1
            ring

theorem bitsVal_inj (w : Nat) : ∀ (l1 l2 : List Nat), l1.length = l2.length →
    (∀ x ∈ l1, x < 2 ^ w) → (∀ x ∈ l2, x < 2 ^ w) →
    bitsVal w l1 = bitsVal w l2 → l1 = l2 := by
  intro l1
  induction l1 with
  | nil =>
      intro l2 hlen _ _ _
      cases l2 with
      | nil => rfl
      | cons _ _ => simp at hlen
  | cons a rest ih =>
      intro l2 hlen h1 h2 hval
      cases l2 with
      | nil => simp at hlen
      | cons b rest2 =>
          have hlen2 : rest.length = rest2.length := by simpa using hlen
          rw [bitsVal_cons, bitsVal_cons, ← hlen2] at hval
          have hv1 : bitsVal w rest < 2 ^ (w * rest.length) :=
            bitsVal_lt w rest (fun x hx => h1 x (by simp [hx]))
          have hv2 : bitsVal w rest2 < 2 ^ (w * rest.length) := by
            rw [hlen2]
            exact bitsVal_lt w rest2 (fun x hx => h2 x (by simp [hx]))
          have hab : a = b := by
            have hpos : 0 < 2 ^ (w * rest.length) := Nat.pos_pow_of_pos _ (by omega)
            have hq := congrArg (fun n => n / 2 ^ (w * rest.length)) hval
            simp only at hq
            rw [Nat.mul_comm a _, Nat.mul_comm b _, Nat.mul_add_div hpos, Nat.mul_add_div hpos,
              Nat.div_eq_of_lt hv1, Nat.div_eq_of_lt hv2] at hq
            simpa using hq
          subst hab
          have hrest : bitsVal w rest = bitsVal w rest2 := Nat.add_left_cancel hval
          rw [ih rest2 hlen2 (fun x hx => h1 x (by simp [hx]))
            (fun x hx => h2 x (by simp [hx])) hrest]

theorem digit_eqW (w x a : Nat) :
    (x % 2 ^ (a + w)) >>> a = (x >>> a) &&& (2 ^ w - 1) := by
  rw [Nat.shiftRight_eq_div_pow, Nat.shiftRight_eq_div_pow, pow_add,
    Nat.mod_mul_right_div_self, Nat.and_pow_two_sub_one_eq_mod]

theorem popBits5_spec : ∀ (bits acc : Nat),
    (popBits5 acc bits).2 = bits % 5 ∧
    5 * (popBits5 acc bits).1.length + bits % 5 = bits ∧
    (∀ g ∈ (popBits5 acc bits).1, g < 32) ∧
    bitsVal 5 (popBits5 acc bits).1 * 2 ^ (bits % 5) + acc % 2 ^ (bits % 5)
      = acc % 2 ^ bits := by
  intro bits
  induction bits using Nat.strong_induction_on with
  | _ bits ih =>
      intro acc
      by_cases h5 : 5 ≤ bits
      · obtain ⟨e1, e2, e3, e4⟩ := ih (bits - 5) (by omega) acc
        have hmod : (bits - 5) % 5 = bits % 5 := by omega
        have hunf : popBits5 acc bits
            = (((acc >>> (bits - 5)) &&& 31) :: (popBits5 acc (bits - 5)).1,
               (popBits5 acc (bits - 5)).2) := by
          rw [popBits5, if_pos h5]
        rw [hunf]
        refine ⟨by simpa [hmod] using e1, ?_, ?_, ?_⟩
        · simp only [List.length_cons]
          omega
        · intro g hg
          rcases List.mem_cons.mp hg with h1 | h2
          · rw [h1]
            have : (acc >>> (bits - 5)) &&& 31 ≤ 31 := Nat.and_le_right
            omega
          · exact e3 g h2
        · rw [hmod] at e4
          rw [bitsVal_cons]
          have hg : (acc >>> (bits - 5)) &&& 31 = (acc % 2 ^ bits) >>> (bits - 5) := by
            have := digit_eqW 5 acc (bits - 5)
            rw [show bits - 5 + 5 = bits by omega] at this
            rw [this]
            norm_num
          have e2L : 5 * (popBits5 acc (bits - 5)).1.length + bits % 5 = bits - 5 := by
            omega
          have expand :
              (((acc >>> (bits - 5)) &&& 31)
                  * 2 ^ (5 * (popBits5 acc (bits - 5)).1.length)
                + bitsVal 5 (popBits5 acc (bits - 5)).1) * 2 ^ (bits % 5)
                + acc % 2 ^ (bits % 5)
              = ((acc >>> (bits - 5)) &&& 31)
                  * 2 ^ (5 * (popBits5 acc (bits - 5)).1.length + bits % 5)
                + (bitsVal 5 (popBits5 acc (bits - 5)).1 * 2 ^ (bits % 5)
                  + acc % 2 ^ (bits % 5)) := by
            rw [pow_add]
            ring
          rw [expand, e4, e2L, hg]
          have hmm : acc % 2 ^ (bits - 5) = (acc % 2 ^ bits) % 2 ^ (bits - 5) :=
            (Nat.mod_mod_of_dvd acc (pow_dvd_pow 2 (by omega))).symm
          rw [hmm, Nat.shiftRight_eq_div_pow]
          exact Nat.div_add_mod' _ _
      · have hunf : popBits5 acc bits = ([], bits) := by
          rw [popBits5, if_neg h5]
        rw [hunf]
        have hm : bits % 5 = bits := Nat.mod_eq_of_lt (by omega)
        refine ⟨hm.symm, by simp [hm], by simp, ?_⟩
        simp [bitsVal, hm]

theorem popBits8_spec : ∀ (bits acc : Nat),
    (popBits8 acc bits).2 = bits % 8 ∧
    8 * (popBits8 acc bits).1.length + bits % 8 = bits ∧
    (∀ g ∈ (popBits8 acc bits).1, g < 256) ∧
    bitsVal 8 (popBits8 acc bits).1 * 2 ^ (bits % 8) + acc % 2 ^ (bits % 8)
      = acc % 2 ^ bits := by
  intro bits
  induction bits using Nat.strong_induction_on with
  | _ bits ih =>
      intro acc
      by_cases h8 : 8 ≤ bits
      · obtain ⟨e1, e2, e3, e4⟩ := ih (bits - 8) (by omega) acc
        have hmod : (bits - 8) % 8 = bits % 8 := by omega
        have hunf : popBits8 acc bits
            = (((acc >>> (bits - 8)) &&& 255) :: (popBits8 acc (bits - 8)).1,
               (popBits8 acc (bits - 8)).2) := by
          rw [popBits8, if_pos h8]
        rw [hunf]
        refine ⟨by simpa [hmod] using e1, ?_, ?_, ?_⟩
        · simp only [List.length_cons]
          omega
        · intro g hg
          rcases List.mem_cons.mp hg with h1 | h2
          · rw [h1]
            have : (acc >>> (bits - 8)) &&& 255 ≤ 255 := Nat.and_le_right
            omega
          · exact e3 g h2
        · rw [hmod] at e4
          rw [bitsVal_cons]
          have hg : (acc >>> (bits - 8)) &&& 255 = (acc % 2 ^ bits) >>> (bits - 8) := by
            have := digit_eqW 8 acc (bits - 8)
            rw [show bits - 8 + 8 = bits by omega] at this
            rw [this]
            norm_num
          have e2L : 8 * (popBits8 acc (bits - 8)).1.length + bits % 8 = bits - 8 := by
            omega
          have expand :
              (((acc >>> (bits - 8)) &&& 255)
                  * 2 ^ (8 * (popBits8 acc (bits - 8)).1.length)
                + bitsVal 8 (popBits8 acc (bits - 8)).1) * 2 ^ (bits % 8)
                + acc % 2 ^ (bits % 8)
              = ((acc >>> (bits - 8)) &&& 255)
                  * 2 ^ (8 * (popBits8 acc (bits - 8)).1.length + bits % 8)
                + (bitsVal 8 (popBits8 acc (bits - 8)).1 * 2 ^ (bits % 8)
                  + acc % 2 ^ (bits % 8)) := by
            rw [pow_add]
            ring
          rw [expand, e4, e2L, hg]
          have hmm : acc % 2 ^ (bits - 8) = (acc % 2 ^ bits) % 2 ^ (bits - 8) :=
            (Nat.mod_mod_of_dvd acc (pow_dvd_pow 2 (by omega))).symm
          rw [hmm, Nat.shiftRight_eq_div_pow]
          exact Nat.div_add_mod' _ _
      · have hunf : popBits8 acc bits = ([], bits) := by
          rw [popBits8, if_neg h8]
        rw [hunf]
        have hm : bits % 8 = bits := Nat.mod_eq_of_lt (by omega)
        refine ⟨hm.symm, by simp [hm], by simp, ?_⟩
        simp [bitsVal, hm]

theorem lor_small (acc b w : Nat) (hb : b < 2 ^ w) :
    (acc <<< w) ||| b = acc * 2 ^ w + b := by
  have hxor : (acc <<< w) ||| b = (acc <<< w) ^^^ b := by
    apply Nat.eq_of_testBit_eq
    intro i
    rw [Nat.testBit_or, Nat.testBit_xor]
    by_cases hi : w ≤ i
    · have hbf : b.testBit i = false := by
        apply Nat.testBit_eq_false_of_lt
        exact lt_of_lt_of_le hb (Nat.pow_le_pow_right (by norm_num) hi)
      rw [hbf]
      cases (acc <<< w).testBit i <;> rfl
    · have hsf : (acc <<< w).testBit i = false := by
        rw [Nat.testBit_shiftLeft]
        simp [hi]
      rw [hsf]
      cases b.testBit i <;> rfl
  have hdiv : (acc * 2 ^ w + b) >>> w = acc := by
    rw [Nat.shiftRight_eq_div_pow, Nat.mul_comm acc,
      Nat.mul_add_div (Nat.two_pow_pos w), Nat.div_eq_of_lt hb, Nat.add_zero]
  have hmod : (acc * 2 ^ w + b) % 2 ^ w = b := by
    rw [Nat.mul_add_mod']
    exact Nat.mod_eq_of_lt hb
  calc (acc <<< w) ||| b = (acc <<< w) ^^^ b := hxor
    _ = (((acc * 2 ^ w + b) >>> w) <<< w) ^^^ ((acc * 2 ^ w + b) % 2 ^ w) := by
        rw [hdiv, hmod]
    _ = acc * 2 ^ w + b := splitXor w (acc * 2 ^ w + b)

theorem mod_mul_add (p q a b : Nat) (hb : b < q) (hp : 0 < p) :
    (a * q + b) % (p * q) = (a % p) * q + b := by
  have hmodp : a % p < p := Nat.mod_lt a hp
  have hlt : (a % p) * q + b < p * q := by
    have h1 : (a % p) * q + b < ((a % p) + 1) * q := by
      rw [Nat.add_mul, Nat.one_mul]
      omega
    have h2 : ((a % p) + 1) * q ≤ p * q := Nat.mul_le_mul_right q (by omega)
    omega
  have hb2 : b < p * q := lt_of_lt_of_le hb (Nat.le_mul_of_pos_left q hp)
  rw [Nat.add_mod, Nat.mul_mod_mul_right, Nat.mod_eq_of_lt hb2, Nat.mod_eq_of_lt hlt]

theorem wrap_mod_step (acc b w bits : Nat) (hb : b < 2 ^ w) (hle : bits + w ≤ 32) :
    (((acc <<< w) ||| b) % 4294967296) % 2 ^ (bits + w)
      = (acc % 2 ^ bits) * 2 ^ w + b := by
  have h32 : (4294967296 : Nat) = 2 ^ 32 := by norm_num
  have hdvd : (2 : Nat) ^ (bits + w) ∣ 2 ^ 32 := pow_dvd_pow 2 hle
  rw [h32, Nat.mod_mod_of_dvd _ hdvd, lor_small acc b w hb, pow_add,
    mod_mul_add (2 ^ bits) (2 ^ w) acc b hb (Nat.two_pow_pos bits)]

theorem convertBits8to5Core_spec : ∀ (bytes : List Nat) (acc bits : Nat),
    (∀ b ∈ bytes, b < 256) → bits ≤ 4 →
    (convertBits8to5Core bytes acc bits).2.2 = (bits + 8 * bytes.length) % 5 ∧
    5 * (convertBits8to5Core bytes acc bits).1.length
        + (convertBits8to5Core bytes acc bits).2.2 = bits + 8 * bytes.length ∧
    (∀ g ∈ (convertBits8to5Core bytes acc bits).1, g < 32) ∧
    bitsVal 5 (convertBits8to5Core bytes acc bits).1
        * 2 ^ (convertBits8to5Core bytes acc bits).2.2
      + (convertBits8to5Core bytes acc bits).2.1
          % 2 ^ (convertBits8to5Core bytes acc bits).2.2
      = (acc % 2 ^ bits) * 2 ^ (8 * bytes.length) + bitsVal 8 bytes := by
  intro bytes
  induction bytes with
  | nil =>
      intro acc bits _ hb4
      refine ⟨?_, by simp [convertBits8to5Core], by simp [convertBits8to5Core], ?_⟩
      · show bits = (bits + 8 * List.length []) % 5
        simp
        omega
      · show bitsVal 5 [] * 2 ^ bits + acc % 2 ^ bits
          = (acc % 2 ^ bits) * 2 ^ (8 * List.length ([] : List Nat)) + bitsVal 8 []
        simp [bitsVal]
  | cons b rest ih =>
      intro acc bits hbs hb4
      have hb : b < 256 := hbs b (by simp)
      have hrest : ∀ x ∈ rest, x < 256 := fun x hx => hbs x (by simp [hx])
      obtain ⟨p1, p2, p3, p4⟩ :=
        popBits5_spec (bits + 8) (((acc <<< 8) ||| b) % 4294967296)
      obtain ⟨i1, i2, i3, i4⟩ := ih (((acc <<< 8) ||| b) % 4294967296)
        ((popBits5 (((acc <<< 8) ||| b) % 4294967296) (bits + 8)).2) hrest (by omega)
      have hunf : convertBits8to5Core (b :: rest) acc bits
          = ((popBits5 (((acc <<< 8) ||| b) % 4294967296) (bits + 8)).1
              ++ (convertBits8to5Core rest (((acc <<< 8) ||| b) % 4294967296)
                  ((popBits5 (((acc <<< 8) ||| b) % 4294967296) (bits + 8)).2)).1,
             (convertBits8to5Core rest (((acc <<< 8) ||| b) % 4294967296)
                  ((popBits5 (((acc <<< 8) ||| b) % 4294967296) (bits + 8)).2)).2.1,
             (convertBits8to5Core rest (((acc <<< 8) ||| b) % 4294967296)
                  ((popBits5 (((acc <<< 8) ||| b) % 4294967296) (bits + 8)).2)).2.2) := by
        rfl
      rw [hunf]
      rw [p1] at i1 i2 i3 i4 ⊢
      have hkey : (((acc <<< 8) ||| b) % 4294967296) % 2 ^ (bits + 8)
          = (acc % 2 ^ bits) * 2 ^ 8 + b :=
        wrap_mod_step acc b 8 bits hb (by omega)
      generalize hC : convertBits8to5Core rest (((acc <<< 8) ||| b) % 4294967296)
        ((bits + 8) % 5) = C at i1 i2 i3 i4 ⊢
      obtain ⟨gs2, accF, bitsF⟩ := C
      generalize hL : (popBits5 (((acc <<< 8) ||| b) % 4294967296) (bits + 8)).1
        = L at p2 p3 p4 ⊢
      dsimp only at i1 i2 i3 i4 ⊢
      refine ⟨?_, ?_, ?_, ?_⟩
      · rw [i1]
        simp only [List.length_cons]
        omega
      · simp only [List.length_append, List.length_cons]
        omega
      · intro g hg
        rcases List.mem_append.mp hg with h1 | h2
        · exact p3 g h1
        · exact i3 g h2
      · rw [bitsVal_append]
        calc (bitsVal 5 L * 2 ^ (5 * gs2.length) + bitsVal 5 gs2) * 2 ^ bitsF
              + accF % 2 ^ bitsF
            = bitsVal 5 L * 2 ^ (5 * gs2.length + bitsF)
              + (bitsVal 5 gs2 * 2 ^ bitsF + accF % 2 ^ bitsF) := by
              rw [pow_add]
              ring
          _ = bitsVal 5 L * 2 ^ ((bits + 8) % 5 + 8 * rest.length)
              + ((((acc <<< 8) ||| b) % 4294967296) % 2 ^ ((bits + 8) % 5)
                  * 2 ^ (8 * rest.length) + bitsVal 8 rest) := by
              rw [i2, i4]
          _ = (bitsVal 5 L * 2 ^ ((bits + 8) % 5)
                + (((acc <<< 8) ||| b) % 4294967296) % 2 ^ ((bits + 8) % 5))
                * 2 ^ (8 * rest.length) + bitsVal 8 rest := by
              rw [pow_add]
              ring
          _ = ((acc % 2 ^ bits) * 2 ^ 8 + b) * 2 ^ (8 * rest.length) + bitsVal 8 rest := by
              rw [p4, hkey]
          _ = (acc % 2 ^ bits) * 2 ^ (8 * List.length (b :: rest)) + bitsVal 8 (b :: rest) := by
              rw [bitsVal_cons, List.length_cons,
                show 8 * (rest.length + 1) = 8 + 8 * rest.length by ring, pow_add]
              ring

theorem convertBits5to8Core_spec : ∀ (vals : List Nat) (acc bits : Nat),
    (∀ v ∈ vals, v < 32) → bits ≤ 7 →
    (convertBits5to8Core vals acc bits).2.2 = (bits + 5 * vals.length) % 8 ∧
    8 * (convertBits5to8Core vals acc bits).1.length
        + (convertBits5to8Core vals acc bits).2.2 = bits + 5 * vals.length ∧
    (∀ x ∈ (convertBits5to8Core vals acc bits).1, x < 256) ∧
    bitsVal 8 (convertBits5to8Core vals acc bits).1
        * 2 ^ (convertBits5to8Core vals acc bits).2.2
      + (convertBits5to8Core vals acc bits).2.1
          % 2 ^ (convertBits5to8Core vals acc bits).2.2
      = (acc % 2 ^ bits) * 2 ^ (5 * vals.length) + bitsVal 5 vals := by
  intro vals
  induction vals with
  | nil =>
      intro acc bits _ hb7
      refine ⟨?_, by simp [convertBits5to8Core], by simp [convertBits5to8Core], ?_⟩
      · show bits = (bits + 5 * List.length []) % 8
        simp
        omega
      · show bitsVal 8 [] * 2 ^ bits + acc % 2 ^ bits
          = (acc % 2 ^ bits) * 2 ^ (5 * List.length ([] : List Nat)) + bitsVal 5 []
        simp [bitsVal]
  | cons v rest ih =>
      intro acc bits hvs hb7
      have hv : v < 32 := hvs v (by simp)
      have hrest : ∀ x ∈ rest, x < 32 := fun x hx => hvs x (by simp [hx])
      obtain ⟨p1, p2, p3, p4⟩ :=
        popBits8_spec (bits + 5) (((acc <<< 5) ||| v) % 4294967296)
      obtain ⟨i1, i2, i3, i4⟩ := ih (((acc <<< 5) ||| v) % 4294967296)
        ((popBits8 (((acc <<< 5) ||| v) % 4294967296) (bits + 5)).2) hrest (by omega)
      have hunf : convertBits5to8Core (v :: rest) acc bits
          = ((popBits8 (((acc <<< 5) ||| v) % 4294967296) (bits + 5)).1
              ++ (convertBits5to8Core rest (((acc <<< 5) ||| v) % 4294967296)
                  ((popBits8 (((acc <<< 5) ||| v) % 4294967296) (bits + 5)).2)).1,
             (convertBits5to8Core rest (((acc <<< 5) ||| v) % 4294967296)
                  ((popBits8 (((acc <<< 5) ||| v) % 4294967296) (bits + 5)).2)).2.1,
             (convertBits5to8Core rest (((acc <<< 5) ||| v) % 4294967296)
                  ((popBits8 (((acc <<< 5) ||| v) % 4294967296) (bits + 5)).2)).2.2) := by
        rfl
      rw [hunf]
      rw [p1] at i1 i2 i3 i4 ⊢
      have hkey : (((acc <<< 5) ||| v) % 4294967296) % 2 ^ (bits + 5)
          = (acc % 2 ^ bits) * 2 ^ 5 + v :=
        wrap_mod_step acc v 5 bits hv (by omega)
      generalize hC : convertBits5to8Core rest (((acc <<< 5) ||| v) % 4294967296)
        ((bits + 5) % 8) = C at i1 i2 i3 i4 ⊢
      obtain ⟨bs2, accF, bitsF⟩ := C
      generalize hL : (popBits8 (((acc <<< 5) ||| v) % 4294967296) (bits + 5)).1
        = L at p2 p3 p4 ⊢
      dsimp only at i1 i2 i3 i4 ⊢
      refine ⟨?_, ?_, ?_, ?_⟩
      · rw [i1]
        simp only [List.length_cons]
        omega
      · simp only [List.length_append, List.length_cons]
        omega
      · intro g hg
        rcases List.mem_append.mp hg with h1 | h2
        · exact p3 g h1
        · exact i3 g h2
      · rw [bitsVal_append]
        calc (bitsVal 8 L * 2 ^ (8 * bs2.length) + bitsVal 8 bs2) * 2 ^ bitsF
              + accF % 2 ^ bitsF
            = bitsVal 8 L * 2 ^ (8 * bs2.length + bitsF)
              + (bitsVal 8 bs2 * 2 ^ bitsF + accF % 2 ^ bitsF) := by
              rw [pow_add]
              ring
          _ = bitsVal 8 L * 2 ^ ((bits + 5) % 8 + 5 * rest.length)
              + ((((acc <<< 5) ||| v) % 4294967296) % 2 ^ ((bits + 5) % 8)
                  * 2 ^ (5 * rest.length) + bitsVal 5 rest) := by
              rw [i2, i4]
          _ = (bitsVal 8 L * 2 ^ ((bits + 5) % 8)
                + (((acc <<< 5) ||| v) % 4294967296) % 2 ^ ((bits + 5) % 8))
                * 2 ^ (5 * rest.length) + bitsVal 5 rest := by
              rw [pow_add]
              ring
          _ = ((acc % 2 ^ bits) * 2 ^ 5 + v) * 2 ^ (5 * rest.length) + bitsVal 5 rest := by
              rw [p4, hkey]
          _ = (acc % 2 ^ bits) * 2 ^ (5 * List.length (v :: rest)) + bitsVal 5 (v :: rest) := by
              rw [bitsVal_cons, List.length_cons,
                show 5 * (rest.length + 1) = 5 + 5 * rest.length by ring, pow_add]
              ring

theorem convertBits8to5_spec (bytes : List Nat) (hlen : bytes.length = 32)
    (hlt : ∀ b ∈ bytes, b < 256) :
    (convertBits8to5 bytes).length = 52 ∧
    (∀ g ∈ convertBits8to5 bytes, g < 32) ∧
    bitsVal 5 (convertBits8to5 bytes) = bitsVal 8 bytes * 16 := by
  obtain ⟨c1, c2, c3, c4⟩ := convertBits8to5Core_spec bytes 0 0 hlt (by omega)
  rw [hlen] at c1 c2 c4
  have hunf : convertBits8to5 bytes
      = (convertBits8to5Core bytes 0 0).1
        ++ (if 0 < (convertBits8to5Core bytes 0 0).2.2
            then [((convertBits8to5Core bytes 0 0).2.1
                <<< (5 - (convertBits8to5Core bytes 0 0).2.2)) &&& 31] else []) := rfl
  rw [hunf]
  generalize hC : convertBits8to5Core bytes 0 0 = C at c1 c2 c3 c4 ⊢
  obtain ⟨gs, accF, bitsF⟩ := C
  dsimp only at c1 c2 c3 c4 ⊢
  have hb1 : bitsF = 1 := by omega
  subst hb1
  simp only [Nat.zero_mod, Nat.zero_mul, Nat.zero_add, pow_one] at c4
  have hpad : (accF <<< (5 - 1)) &&& 31 = (accF % 2) * 16 := by
    rw [Nat.shiftLeft_eq, show (31 : Nat) = 2 ^ 5 - 1 by norm_num,
      Nat.and_pow_two_sub_one_eq_mod,
      show (2 : Nat) ^ (5 - 1) = 16 by norm_num,
      show (2 : Nat) ^ 5 = 2 * 16 by norm_num,
      Nat.mul_mod_mul_right]
  rw [if_pos (by norm_num : (0 : Nat) < 1), hpad]
  refine ⟨?_, ?_, ?_⟩
  · simp only [List.length_append, List.length_cons, List.length_nil]
    omega
  · intro g hg
    rcases List.mem_append.mp hg with h1 | h2
    · exact c3 g h1
    · have : g = (accF % 2) * 16 := by simpa using h2
      have h2' : accF % 2 < 2 := Nat.mod_lt accF (by norm_num)
      omega
  · rw [bitsVal_append]
    simp only [List.length_cons, List.length_nil]
    have hone : bitsVal 5 [(accF % 2) * 16] = (accF % 2) * 16 := by
      simp [bitsVal]
    rw [hone, show (2 : Nat) ^ (5 * 1) = 32 by norm_num]
    omega

theorem convertBits5to8_spec (gs : List Nat) (hlen : gs.length = 52)
    (hlt : ∀ g ∈ gs, g < 32) :
    (convertBits5to8 gs).length = 32 ∧
    (∀ x ∈ convertBits5to8 gs, x < 256) ∧
    bitsVal 8 (convertBits5to8 gs) * 16
        + (convertBits5to8Core gs 0 0).2.1 % 16 = bitsVal 5 gs := by
  obtain ⟨c1, c2, c3, c4⟩ := convertBits5to8Core_spec gs 0 0 hlt (by omega)
  rw [hlen] at c1 c2 c4
  have hb : (convertBits5to8Core gs 0 0).2.2 = 4 := by omega
  rw [hb] at c2 c4
  have hunf : convertBits5to8 gs = (convertBits5to8Core gs 0 0).1 := rfl
  rw [hunf]
  refine ⟨by omega, c3, ?_⟩
  simp only [Nat.zero_mod, Nat.zero_mul, Nat.zero_add] at c4
  norm_num at c4
  omega

theorem conv_roundtrip (bytes : List Nat) (hlen : bytes.length = 32)
    (hlt : ∀ b ∈ bytes, b < 256) :
    convertBits5to8 (convertBits8to5 bytes) = bytes := by
  obtain ⟨e1, e2, e3⟩ := convertBits8to5_spec bytes hlen hlt
  obtain ⟨f1, f2, f3⟩ := convertBits5to8_spec (convertBits8to5 bytes) e1 e2
  rw [e3] at f3
  have hval : bitsVal 8 (convertBits5to8 (convertBits8to5 bytes)) = bitsVal 8 bytes := by
    have h16 : (convertBits5to8Core (convertBits8to5 bytes) 0 0).2.1 % 16 < 16 :=
      Nat.mod_lt _ (by norm_num)
    omega
  exact bitsVal_inj 8 _ _ (by rw [f1, hlen]) (fun x hx => f2 x hx)
    (fun x hx => hlt x hx) hval

theorem hexDigit_roundtrip (c : Char) (hc : isLowerHexDigit c = true) :
    hexDigitVal c < 16 ∧ hexChar (hexDigitVal c) = c := by
  have hmem : c ∈ LOWER_HEX := List.mem_of_elem_eq_true hc
  fin_cases hmem <;> exact ⟨by decide, by decide⟩

theorem hexToBytes_spec : ∀ (n : Nat) (l : List Char), l.length = 2 * n →
    (∀ c ∈ l, isLowerHexDigit c = true) →
    (hexToBytes l).length = n ∧ (∀ b ∈ hexToBytes l, b < 256) ∧
    bytesToHex (hexToBytes l) = l := by
  intro n
  induction n with
  | zero =>
      intro l hl _
      have : l = [] := List.eq_nil_of_length_eq_zero (by omega)
      subst this
      exact ⟨rfl, by simp [hexToBytes], rfl⟩
  | succ n ihn =>
      intro l hl hhex
      match l with
      | c1 :: c2 :: rest =>
        have hr : rest.length = 2 * n := by
          simp only [List.length_cons] at hl
          omega
        obtain ⟨q1, q2, q3⟩ := ihn rest hr (fun c hc => hhex c (by simp [hc]))
        obtain ⟨v1lt, v1eq⟩ := hexDigit_roundtrip c1 (hhex c1 (by simp))
        obtain ⟨v2lt, v2eq⟩ := hexDigit_roundtrip c2 (hhex c2 (by simp))
        have hunf : hexToBytes (c1 :: c2 :: rest)
            = (16 * hexDigitVal c1 + hexDigitVal c2) :: hexToBytes rest := rfl
        rw [hunf]
        refine ⟨by simp [q1], ?_, ?_⟩
        · intro b hb
          rcases List.mem_cons.mp hb with h1 | h2
          · omega
          · exact q2 b h2
        · have hpair : byteToHexPair (16 * hexDigitVal c1 + hexDigitVal c2)
              = [c1, c2] := by
            unfold byteToHexPair
            rw [Nat.mul_add_div (by norm_num), Nat.div_eq_of_lt v2lt, Nat.add_zero,
              Nat.mul_add_mod, Nat.mod_eq_of_lt v2lt, v1eq, v2eq]
          simp only [bytesToHex, List.map_cons, List.flatten_cons]
          rw [hpair]
          simp only [List.cons_append, List.nil_append, List.cons.injEq]
          exact ⟨trivial, trivial, by simpa [bytesToHex] using q3⟩

theorem charset_facts : ∀ v : Fin 32,
    CHARSET.getD v.val ' ' ≠ '1' ∧
    Char.toLower (CHARSET.getD v.val ' ') = CHARSET.getD v.val ' ' ∧
    charsetIndex (CHARSET.getD v.val ' ') = some v.val ∧
    isWhitespaceChar (CHARSET.getD v.val ' ') = false := by
  decide

theorem mapCharset_map : ∀ (dl : List Nat), (∀ v ∈ dl, v < 32) →
    mapCharset (dl.map (fun d => CHARSET.getD d ' ')) = some dl := by
  intro dl
  induction dl with
  | nil => intro _; rfl
  | cons v rest ih =>
      intro hall
      have hv : v < 32 := hall v (by simp)
      have hidx := (charset_facts ⟨v, hv⟩).2.2.1
      simp only [List.map_cons, mapCharset, hidx, ih (fun x hx => hall x (by simp [hx]))]

theorem toLower_map_charset (dl : List Nat) (hall : ∀ v ∈ dl, v < 32) :
    toLowerStr (dl.map (fun d => CHARSET.getD d ' '))
      = dl.map (fun d => CHARSET.getD d ' ') := by
  unfold toLowerStr
  rw [List.map_map]
  apply List.map_congr_left
  intro v hv
  exact (charset_facts ⟨v, hall v hv⟩).2.1

theorem charset_map_ne_one (dl : List Nat) (hall : ∀ v ∈ dl, v < 32) :
    ∀ c ∈ dl.map (fun d => CHARSET.getD d ' '), c ≠ '1' := by
  intro c hc
  rcases List.mem_map.mp hc with ⟨v, hv, rfl⟩
  exact (charset_facts ⟨v, hall v hv⟩).1

theorem charset_map_no_ws (dl : List Nat) (hall : ∀ v ∈ dl, v < 32) :
    ∀ c ∈ dl.map (fun d => CHARSET.getD d ' '), isWhitespaceChar c = false := by
  intro c hc
  rcases List.mem_map.mp hc with ⟨v, hv, rfl⟩
  exact (charset_facts ⟨v, hall v hv⟩).2.2.2

theorem lastIndexOf_eq_none (c : Char) : ∀ (l : List Char),
    (∀ x ∈ l, x ≠ c) → lastIndexOf c l = none := by
  intro l
  induction l with
  | nil => intro _; rfl
  | cons x rest ih =>
      intro hl
      simp only [lastIndexOf, ih (fun y hy => hl y (by simp [hy]))]
      rw [if_neg (hl x (by simp))]

theorem lastIndexOf_append_cons (c : Char) : ∀ (l1 l2 : List Char),
    (∀ x ∈ l2, x ≠ c) → lastIndexOf c (l1 ++ c :: l2) = some l1.length := by
  intro l1 l2 h2
  induction l1 with
  | nil =>
      simp only [List.nil_append, lastIndexOf, lastIndexOf_eq_none c l2 h2]
      simp
  | cons x rest ih =>
      simp only [List.cons_append, lastIndexOf, List.append_eq]
      rw [ih]
      rfl

theorem createChecksum_lt (hrp : List Char) (data : List Nat) :
    ∀ x ∈ createChecksum hrp data, x < 32 := by
  intro x hx
  have h31 : ∀ y : Nat, y &&& 31 < 32 := by
    intro y
    have := @Nat.and_le_right y 31
    omega
  simp only [createChecksum, List.mem_cons, List.not_mem_nil, or_false] at hx
  rcases hx with h | h | h | h | h | h <;> rw [h] <;> exact h31 _

theorem bech32_decode_encode (bytes : List Nat) (hlen : bytes.length = 32)
    (hlt : ∀ b ∈ bytes, b < 256) :
    bech32Decode (bech32Encode "npub".data bytes) = some ("npub".data, bytes) := by
  obtain ⟨e1, e2, e3⟩ := convertBits8to5_spec bytes hlen hlt
  have hcs := createChecksum_lt "npub".data (convertBits8to5 bytes)
  have hcslen : (createChecksum "npub".data (convertBits8to5 bytes)).length = 6 := rfl
  have hdl : ∀ v ∈ convertBits8to5 bytes
      ++ createChecksum "npub".data (convertBits8to5 bytes), v < 32 := by
    intro v hv
    rcases List.mem_append.mp hv with h | h
    · exact e2 v h
    · exact hcs v h
  have henc : bech32Encode "npub".data bytes
      = ("npub".data ++ ['1'])
        ++ (convertBits8to5 bytes
            ++ createChecksum "npub".data (convertBits8to5 bytes)).map
            (fun d => CHARSET.getD d ' ') := rfl
  have hmaplen : ((convertBits8to5 bytes
      ++ createChecksum "npub".data (convertBits8to5 bytes)).map
      (fun d => CHARSET.getD d ' ')).length = 58 := by
    simp only [List.length_map, List.length_append, hcslen, e1]
  have htl : toLowerStr (("npub".data ++ ['1'])
        ++ (convertBits8to5 bytes
            ++ createChecksum "npub".data (convertBits8to5 bytes)).map
            (fun d => CHARSET.getD d ' '))
      = ("npub".data ++ ['1'])
        ++ (convertBits8to5 bytes
            ++ createChecksum "npub".data (convertBits8to5 bytes)).map
            (fun d => CHARSET.getD d ' ') := by
    unfold toLowerStr
    rw [List.map_append]
    have h1 : List.map Char.toLower ("npub".data ++ ['1']) = "npub".data ++ ['1'] := by
      decide
    rw [h1]
    have h2 := toLower_map_charset _ hdl
    unfold toLowerStr at h2
    rw [h2]
  have hli : lastIndexOf '1' (("npub".data ++ ['1'])
        ++ (convertBits8to5 bytes
            ++ createChecksum "npub".data (convertBits8to5 bytes)).map
            (fun d => CHARSET.getD d ' '))
      = some 4 := by
    have hassoc : ("npub".data ++ ['1'])
          ++ (convertBits8to5 bytes
              ++ createChecksum "npub".data (convertBits8to5 bytes)).map
              (fun d => CHARSET.getD d ' ')
        = "npub".data ++ '1' :: (convertBits8to5 bytes
              ++ createChecksum "npub".data (convertBits8to5 bytes)).map
              (fun d => CHARSET.getD d ' ') := by
      simp
    rw [hassoc]
    exact lastIndexOf_append_cons '1' "npub".data _ (charset_map_ne_one _ hdl)
  have hlen63 : (("npub".data ++ ['1'])
        ++ (convertBits8to5 bytes
            ++ createChecksum "npub".data (convertBits8to5 bytes)).map
            (fun d => CHARSET.getD d ' ')).length = 63 := by
    simp only [List.length_append, hmaplen]
    rfl
  have hdrop5 : (("npub".data ++ ['1'])
        ++ (convertBits8to5 bytes
            ++ createChecksum "npub".data (convertBits8to5 bytes)).map
            (fun d => CHARSET.getD d ' ')).drop 5
      = (convertBits8to5 bytes
            ++ createChecksum "npub".data (convertBits8to5 bytes)).map
            (fun d => CHARSET.getD d ' ') :=
    List.drop_left' (by rfl)
  have htake4 : (("npub".data ++ ['1'])
        ++ (convertBits8to5 bytes
            ++ createChecksum "npub".data (convertBits8to5 bytes)).map
            (fun d => CHARSET.getD d ' ')).take 4
      = "npub".data := by
    rw [List.append_assoc]
    exact List.take_left' (by rfl)
  have hmap : mapCharset ((convertBits8to5 bytes
        ++ createChecksum "npub".data (convertBits8to5 bytes)).map
        (fun d => CHARSET.getD d ' '))
      = some (convertBits8to5 bytes
        ++ createChecksum "npub".data (convertBits8to5 bytes)) :=
    mapCharset_map _ hdl
  have hver : verifyChecksum "npub".data (convertBits8to5 bytes
      ++ createChecksum "npub".data (convertBits8to5 bytes)) = true :=
    createChecksum_valid "npub".data (convertBits8to5 bytes)
      (fun v hv => lt_trans (e2 v hv) (by norm_num))
  have hdllen : (convertBits8to5 bytes
      ++ createChecksum "npub".data (convertBits8to5 bytes)).length = 58 := by
    simp only [List.length_append, hcslen, e1]
  have htake52 : (convertBits8to5 bytes
      ++ createChecksum "npub".data (convertBits8to5 bytes)).take 52
      = convertBits8to5 bytes :=
    List.take_left' e1
  have hconv : convertBits5to8 (convertBits8to5 bytes) = bytes :=
    conv_roundtrip bytes hlen hlt
  rw [henc]
  unfold bech32Decode
  rw [htl, hli]
  simp only [hlen63, hdrop5, hmap, hver, hdllen, htake52, htake4, hconv]
  norm_num

theorem dropWhile_of_all_false (p : Char → Bool) : ∀ (l : List Char),
    (∀ c ∈ l, p c = false) → l.dropWhile p = l := by
  intro l
  induction l with
  | nil => intro _; rfl
  | cons x rest _ =>
      intro hl
      simp [List.dropWhile_cons, hl x (by simp)]

theorem trimStr_of_no_ws (l : List Char) (hl : ∀ c ∈ l, isWhitespaceChar c = false) :
    trimStr l = l := by
  unfold trimStr
  rw [dropWhile_of_all_false _ l hl,
    dropWhile_of_all_false _ l.reverse (fun c hc => hl c (List.mem_reverse.mp hc)),
    List.reverse_reverse]

theorem npub_enc_no_ws (bytes : List Nat) (hlen : bytes.length = 32)
    (hlt : ∀ b ∈ bytes, b < 256) :
    ∀ c ∈ bech32Encode "npub".data bytes, isWhitespaceChar c = false := by
  obtain ⟨e1, e2, _⟩ := convertBits8to5_spec bytes hlen hlt
  have hcs := createChecksum_lt "npub".data (convertBits8to5 bytes)
  have hdl : ∀ v ∈ convertBits8to5 bytes
      ++ createChecksum "npub".data (convertBits8to5 bytes), v < 32 := by
    intro v hv
    rcases List.mem_append.mp hv with hh | hh
    · exact e2 v hh
    · exact hcs v hh
  intro c hc
  have henc : bech32Encode "npub".data bytes
      = ("npub".data ++ ['1'])
        ++ (convertBits8to5 bytes
            ++ createChecksum "npub".data (convertBits8to5 bytes)).map
            (fun d => CHARSET.getD d ' ') := rfl
  rw [henc] at hc
  rcases List.mem_append.mp hc with hh | hh
  · fin_cases hh <;> decide
  · exact charset_map_no_ws _ hdl c hh

theorem npub_enc_length (bytes : List Nat) (hlen : bytes.length = 32)
    (hlt : ∀ b ∈ bytes, b < 256) :
    (bech32Encode "npub".data bytes).length = 63 := by
  obtain ⟨e1, _, _⟩ := convertBits8to5_spec bytes hlen hlt
  have hcslen : (createChecksum "npub".data (convertBits8to5 bytes)).length = 6 := rfl
  have henc : bech32Encode "npub".data bytes
      = ("npub".data ++ ['1'])
        ++ (convertBits8to5 bytes
            ++ createChecksum "npub".data (convertBits8to5 bytes)).map
            (fun d => CHARSET.getD d ' ') := rfl
  rw [henc]
  simp only [List.length_append, List.length_map, hcslen, e1]
  rfl

theorem npub_enc_begins (bytes : List Nat) :
    strBeginsWith (String.mk (bech32Encode "npub".data bytes)) "npub1" = true := by
  unfold strBeginsWith
  have hstr : (String.mk (bech32Encode "npub".data bytes)).data
      = bech32Encode "npub".data bytes := rfl
  have henc : bech32Encode "npub".data bytes
      = ("npub".data ++ ['1'])
        ++ (convertBits8to5 bytes
            ++ createChecksum "npub".data (convertBits8to5 bytes)).map
            (fun d => CHARSET.getD d ' ') := rfl
  rw [hstr, henc, show ("npub1".data).length = 5 from rfl,
    List.take_left' (by decide : ("npub".data ++ ['1']).length = 5)]
  decide

/-- C10: the address codec round-trips. For every 64-character lowercase
hexadecimal string `h`, `hexToNpub`/`npubEncode` succeeds with an `npub1…`
bech32 string, `nip19Decode` of that encoding returns type `npub` with the
original hex data, and `parseHexOrNpub` of the encoding returns `h`. -/
theorem nip19_roundtrip_C10 (h : String) (hlen : h.length = 64)
    (hhex : ∀ c ∈ h.data, isLowerHexDigit c = true) :
    ∃ enc : String, hexToNpub h = some enc ∧
      nip19Decode enc = some ⟨"npub", h⟩ ∧
      parseHexOrNpub enc = some h := by
  have hdlen : h.data.length = 64 := hlen
  obtain ⟨b1, b2, b3⟩ := hexToBytes_spec 32 h.data (by omega) hhex
  have hstr : (String.mk (bech32Encode "npub".data (hexToBytes h.data))).data
      = bech32Encode "npub".data (hexToBytes h.data) := rfl
  have hnip : nip19Decode (String.mk (bech32Encode "npub".data (hexToBytes h.data)))
      = some ⟨"npub", h⟩ := by
    have hdec := bech32_decode_encode (hexToBytes h.data) b1 b2
    unfold nip19Decode
    rw [hstr, hdec]
    dsimp only
    rw [if_pos rfl, if_pos b1, b3]
  refine ⟨String.mk (bech32Encode "npub".data (hexToBytes h.data)), ?_, hnip, ?_⟩
  · unfold hexToNpub npubEncode
    rw [if_pos hlen]
  · have hnws := npub_enc_no_ws (hexToBytes h.data) b1 b2
    have htrim : trimStr (bech32Encode "npub".data (hexToBytes h.data))
        = bech32Encode "npub".data (hexToBytes h.data) :=
      trimStr_of_no_ws _ hnws
    have h63 := npub_enc_length (hexToBytes h.data) b1 b2
    have hh64 : isHex64 (bech32Encode "npub".data (hexToBytes h.data)) = false := by
      simp [isHex64, h63]
    unfold parseHexOrNpub
    rw [hstr, htrim]
    rw [if_neg (by simp [hh64])]
    rw [if_pos (npub_enc_begins (hexToBytes h.data))]
    rw [hnip]
    dsimp only
    rw [if_pos rfl]

theorem nip19_roundtrip_C10_witness :
    (String.mk (List.replicate 64 '0')).length = 64 ∧
    (∀ c ∈ (String.mk (List.replicate 64 '0')).data, isLowerHexDigit c = true) ∧
    ∃ enc : String,
      hexToNpub (String.mk (List.replicate 64 '0')) = some enc ∧
      nip19Decode enc = some ⟨"npub", String.mk (List.replicate 64 '0')⟩ ∧
      parseHexOrNpub enc = some (String.mk (List.replicate 64 '0')) :=
  ⟨by decide, by decide,
    nip19_roundtrip_C10 (String.mk (List.replicate 64 '0')) (by decide) (by decide)⟩
